import Mathlib

/-!
Verification of a Sudoku CSP solver (grid/domain data model, AC3-style
propagation, backtracking search with pluggable variable selection).

The definitions below are a shallow embedding of the Python source
(`main.py`).  Grids are 9x9 matrices of domains; a domain is the list of
candidate digit characters still possible for a cell.  Python's mutable
grid is modelled by explicit state passing; `str.replace(pat, '')` is
modelled by `removeAll`; the Python `set` worklist of `AC3.consistency`
is modelled by a duplicate-free list popped from the front (one concrete
refinement of the unspecified set iteration order; a separate definition
`AC3.consistencyPick` makes the pop order an explicit parameter).
Python's unbounded recursion in `backtrack_search` is modelled with
explicit fuel counting recursion depth.
-/

namespace Sudoku

abbrev Domain := List Char

abbrev Coord := Nat × Nat

/-- The matrix `_cells`: a list of rows, each row a list of domains. -/
abbrev GridT := List (List Domain)

/-- `Grid._complete_domain = "123456789"`. -/
def completeDomain : Domain := ['1', '2', '3', '4', '5', '6', '7', '8', '9']

/-- `Grid._width = 9`. -/
def width : Nat := 9

/-- Reading `_cells[i][j]`, total (out-of-range reads give `[]`). -/
def getCell (g : GridT) (i j : Nat) : Domain := (g.getD i []).getD j []

/-- Writing `_cells[i][j] = v`, total (out-of-range writes are dropped). -/
def setCell (g : GridT) (i j : Nat) (v : Domain) : GridT :=
  g.set i ((g.getD i []).set j v)

/-- Structural worker for `removeAll`: `fuel` bounds the number of
characters still to be scanned, so the base case is unreachable for
`fuel = s.length` (computation fuel only, so that the kernel can
evaluate the definition; see `removeAllF_irrel`). -/
def removeAllF : Nat → Domain → Domain → Domain
  | 0, _, s => s
  | fuel + 1, p, s =>
    match s with
    | [] => []
    | c :: rest =>
      if p.isPrefixOf (c :: rest) ∧ p ≠ [] then
        removeAllF fuel p (rest.drop (p.length - 1))
      else
        c :: removeAllF fuel p rest

/-- Python `s.replace(p, '')`: delete the non-overlapping occurrences of
`p` in `s`, scanning left to right (for empty `p` the string is kept, as
`str.replace` with an empty pattern and empty replacement returns the
original string). -/
def removeAll (p : Domain) (s : Domain) : Domain := removeAllF s.length p s

namespace Grid

/-- `Grid.copy`: a deep copy; in the pure model the grid value itself. -/
def copy (g : GridT) : GridT := g

/-- The loop body of `Grid.read_file`: `row` accumulates converted
entries of the current row, which is emitted into `cells` after every
ninth character; a trailing partial row is never emitted. -/
def readAux (cs : List Char) (row : List Domain) (cells : GridT) : GridT :=
  match cs with
  | [] => cells
  | c :: rest =>
    if (row ++ [if c = '.' then completeDomain else [c]]).length = width then
      readAux rest [] (cells ++ [row ++ [if c = '.' then completeDomain else [c]]])
    else
      readAux rest (row ++ [if c = '.' then completeDomain else [c]]) cells

/-- `Grid.read_file`: build `_cells` from a puzzle string (given as its
character list).  Every `'.'` becomes the complete domain and any other
character becomes a singleton domain; no validation is performed. -/
def read_file (s : List Char) : GridT := readAux s [] []

/-- `Grid.is_value_consistent(value, row, column)`. -/
def is_value_consistent (g : GridT) (value : Domain) (row col : Nat) : Bool :=
  ((List.range width).all fun i => i == col || !(getCell g row i == value)) &&
  (((List.range width).all fun i => i == row || !(getCell g i col == value)) &&
   ((List.range 3).all fun a =>
     (List.range 3).all fun b =>
       (row / 3 * 3 + a == row && col / 3 * 3 + b == col) ||
       !(getCell g (row / 3 * 3 + a) (col / 3 * 3 + b) == value)))

/-- `Grid.is_solved()`. -/
def is_solved (g : GridT) : Bool :=
  (List.range width).all fun i =>
    (List.range width).all fun j =>
      !(decide (1 < (getCell g i j).length)) &&
      is_value_consistent g (getCell g i j) i j

end Grid

/-- All 81 cell coordinates in row-major order. -/
def allCoords : List Coord :=
  (List.range width).flatMap fun i => (List.range width).map fun j => (i, j)

/-- The two implemented `VarSelector` strategies. -/
inductive VarSelector where
  | firstAvailable : VarSelector
  | mrv : VarSelector
deriving DecidableEq, Repr

/-- `FirstAvailable.select_variable`: first cell (row-major) whose domain
has more than one element. -/
def FirstAvailable.select_variable (g : GridT) : Option Coord :=
  (List.range width).findSome? fun i =>
    (List.range width).findSome? fun j =>
      if 1 < (getCell g i j).length then some (i, j) else none

/-- One step of the `MRV.select_variable` scan: compare the cell `ij`
against the best candidate so far (`none` is `float('inf')`). -/
def MRV.step (g : GridT) (st : Option (Nat × Coord)) (ij : Coord) : Option (Nat × Coord) :=
  match st with
  | none => if 1 < (getCell g ij.1 ij.2).length then some ((getCell g ij.1 ij.2).length, ij) else none
  | some (m, sel) =>
    if 1 < (getCell g ij.1 ij.2).length ∧ (getCell g ij.1 ij.2).length < m then
      some ((getCell g ij.1 ij.2).length, ij)
    else some (m, sel)

/-- `MRV.select_variable`: a cell with the smallest domain of size `> 1`,
ties broken by first encounter in row-major order (`float('inf')` is the
absent initial minimum, modelled by `Option`). -/
def MRV.select_variable (g : GridT) : Option Coord :=
  (allCoords.foldl (MRV.step g) none).map (·.2)

def select_variable : VarSelector → GridT → Option Coord
  | .firstAvailable => FirstAvailable.select_variable
  | .mrv => MRV.select_variable

namespace AC3

/-- The common loop shape of the three `remove_domain_*` methods:
iterate over the target coordinates `ts` of a unit, skipping the source
cell `(row, col)`, removing the source domain from each target.
Returns `(none, g')` on failure (a domain would become empty; nothing is
written in that failing step) and `(some newlySingleton, g')` on
success.  Each of the three methods instantiates `ts` with its own unit
in the source's iteration order; the skip test `i = row ∧ j = col`
coincides with each method's own skip test on its targets. -/
def passAux (g : GridT) (row col : Nat) (ts : List Coord) (acc : List Coord) :
    Option (List Coord) × GridT :=
  match ts with
  | [] => (some acc, g)
  | (i, j) :: rest =>
    if i = row ∧ j = col then passAux g row col rest acc
    else
      let nd := removeAll (getCell g row col) (getCell g i j)
      if nd.length = 0 then (none, g)
      else
        passAux (setCell g i j nd) row col rest
          (if nd.length = 1 ∧ 1 < (getCell g i j).length then acc ++ [(i, j)] else acc)

/-- `AC3.remove_domain_row`: targets `(row, j)` for `j` in `range(9)`,
skipping `j == column`. -/
def remove_domain_row (g : GridT) (row col : Nat) : Option (List Coord) × GridT :=
  passAux g row col ((List.range width).map fun j => (row, j)) []

/-- `AC3.remove_domain_column`: targets `(j, column)` for `j` in
`range(9)`, skipping `j == row`. -/
def remove_domain_column (g : GridT) (row col : Nat) : Option (List Coord) × GridT :=
  passAux g row col ((List.range width).map fun j => (j, col)) []

/-- The nine coordinates of the 3x3 box containing `(row, col)`, in the
source's iteration order. -/
def boxCoords (row col : Nat) : List Coord :=
  (List.range 3).flatMap fun a =>
    (List.range 3).map fun b => (row / 3 * 3 + a, col / 3 * 3 + b)

/-- `AC3.remove_domain_unit`: targets the 3x3 box of `(row, col)`,
skipping the source cell itself. -/
def remove_domain_unit (g : GridT) (row col : Nat) : Option (List Coord) × GridT :=
  passAux g row col (boxCoords row col) []

/-- Adding a batch of coordinates to the worklist: the Python worklist is
a `set`, so a coordinate already present is not added again. -/
def addAll (q : List Coord) (news : List Coord) : List Coord :=
  news.foldl (fun q' n => if n ∈ q' then q' else q' ++ [n]) q

/-- Total size of one row's domains. -/
def rowSize (r : List Domain) : Nat := (r.map List.length).sum

/-- Total domain size of a grid; the termination measure of
`consistency` decreases with it. -/
def gsize (g : GridT) : Nat := (g.map rowSize).sum

end AC3

namespace AC3

/-- Structural worker for `AC3.consistency`: `fuel` bounds the number of
worklist pops; `2 * gsize g + Q.length` strictly decreases at each pop,
so the base case is unreachable for any sufficient fuel
(see `consistencyF_irrel`). -/
def consistencyF : Nat → GridT → List Coord → GridT × Bool
  | 0, g, _ => (g, true)
  | fuel + 1, g, Q =>
    match Q with
    | [] => (g, true)
    | (r, c) :: rest =>
      match remove_domain_unit g r c with
      | (some ul, g1) =>
        match remove_domain_column g1 r c with
        | (some cl, g2) =>
          match remove_domain_row g2 r c with
          | (some rl, g3) => consistencyF fuel g3 (addAll rest (ul ++ cl ++ rl))
          | (none, g3) => (g3, false)
        | (none, g2) => ((remove_domain_row g2 r c).2, false)
      | (none, g1) => ((remove_domain_row (remove_domain_column g1 r c).2 r c).2, false)

/-- `AC3.consistency(grid, Q)`: the AC3 worklist loop.  The worklist is
popped from the front; on failure of any of the three passes the method
stops with `False` (all three passes have already run, as in the
source); otherwise the newly-singleton cells are added to the worklist
(skipping duplicates, as the Python worklist is a set). -/
def consistency (g : GridT) (Q : List Coord) : GridT × Bool :=
  consistencyF (2 * gsize g + Q.length + 1) g Q

/-- `AC3.pre_process_consistency(grid)`: seed the worklist with every
already-singleton cell (row-major) and run `consistency`. -/
def pre_process_consistency (g : GridT) : GridT × Bool :=
  consistency g
    (((List.range width).map fun i =>
      ((List.range width).filter fun j => (getCell g i j).length == 1).map fun j => (i, j)).flatten)

end AC3

namespace Backtracking

/-- The candidate loop of `Backtracking.backtrack_search`: try each
digit `d` of the selected cell's domain in stored order.  `recur` is the
recursive call of `backtrack_search` one level deeper.  `none` means the
fuel ran out somewhere below; `some none` is the source's `None`
("no solution on this branch"); `some (some g)` is a found solution. -/
def tryDigits (recur : GridT → Option (Option GridT)) (g : GridT) (r c : Nat) :
    List Char → Option (Option GridT)
  | [] => some none
  | d :: ds =>
    if Grid.is_value_consistent g [d] r c then
      match AC3.consistency (setCell (Grid.copy g) r c [d]) [(r, c)] with
      | (ng, true) =>
        match recur ng with
        | some (some sol) => some (some sol)
        | some none => tryDigits recur g r c ds
        | none => none
      | (_, false) => tryDigits recur g r c ds
    else tryDigits recur g r c ds

/-- `Backtracking.backtrack_search`, with explicit fuel bounding the
recursion depth (`none` = fuel exhausted; the fuel never runs out when
it exceeds the number of open cells, see the termination theorem). -/
def backtrack_searchF : Nat → GridT → VarSelector → Option (Option GridT)
  | 0, _, _ => none
  | fuel + 1, g, sel =>
    if Grid.is_solved g then some (some g)
    else
      match select_variable sel g with
      | none => some none
      | some (r, c) =>
        tryDigits (fun ng => backtrack_searchF fuel ng sel) g r c (getCell g r c)

/-- `Backtracking.search(grid, var_selector, ac3)`: run the
pre-processing (discarding its boolean result, exactly as the source
does) and then the recursive search.  Fuel 82 suffices for every grid
because at most 81 cells are open and each recursive call closes one. -/
def search (g : GridT) (sel : VarSelector) : Option GridT :=
  ((backtrack_searchF 82 (AC3.pre_process_consistency g).1 sel).getD none)

end Backtracking

/-! ## Derived notions used to state the verified properties -/

/-- Whether the cell at `ij` is open (domain size `> 1`). -/
def openAt (g : GridT) : Coord → Bool := fun ij => decide (1 < (getCell g ij.1 ij.2).length)

/-- Number of open cells (domain size `> 1`) among the 81 positions. -/
def openCount (g : GridT) : Nat := allCoords.countP (openAt g)

/-- A well-formed puzzle string: 81 characters over `.123456789`. -/
def ValidPuzzleStr (s : List Char) : Prop :=
  s.length = 81 ∧ ∀ c ∈ s, c = '.' ∨ c ∈ completeDomain

/-- The conversion of one input character performed by `read_file`. -/
def conv (c : Char) : Domain := if c = '.' then completeDomain else [c]

/-- Group a list of converted domains into rows of nine, dropping a
trailing partial row; `read_file` computes exactly this (see
`Grid.read_file_eq`). -/
def chunk (l : List Domain) : GridT :=
  if h : 9 ≤ l.length then l.take 9 :: chunk (l.drop 9) else []
termination_by l.length
decreasing_by
  simp only [List.length_drop]
  omega

/-- A 9x9 grid shape. -/
def Shape9 (g : GridT) : Prop := g.length = 9 ∧ ∀ r ∈ g, r.length = 9

/-- Pointwise domain shrinkage: every cell of `g'` is a subsequence of
the corresponding cell of `g`. -/
def GridLe (g1 g : GridT) : Prop := ∀ i j, List.Sublist (getCell g1 i j) (getCell g i j)

/-- `g1` has an empty cell only where `g` already had one. -/
def NoNewEmpty (g1 g : GridT) : Prop := ∀ i j, getCell g1 i j = [] → getCell g i j = []

/-- Every in-range cell is non-empty (the liveness invariant of the spec). -/
def NonEmptyGrid (g : GridT) : Prop := ∀ i j, i < 9 → j < 9 → getCell g i j ≠ []

/-- Every cell is an ascending subsequence of `123456789`. -/
def DigitsGrid (g : GridT) : Prop := ∀ i j, List.Sublist (getCell g i j) completeDomain

/-- Decidability of doubly-bounded quantifications, used to evaluate the
grid predicates on concrete inputs. -/
instance decidableBallPair {P : Nat → Nat → Prop} [∀ i j, Decidable (P i j)] {n m : Nat} :
    Decidable (∀ i j, i < n → j < m → P i j) :=
  decidable_of_iff (∀ i, i < n → ∀ j, j < m → P i j)
    ⟨fun h i j hi hj => h i hi j hj, fun h i hi j hj => h i j hi hj⟩

instance decidableNonEmptyGrid (g : GridT) : Decidable (NonEmptyGrid g) := by
  unfold NonEmptyGrid
  infer_instance

instance decidableDigitsGrid (g : GridT) : Decidable (DigitsGrid g) :=
  decidable_of_iff (∀ i, i < g.length → ∀ j, j < (g.getD i []).length →
      List.Sublist (getCell g i j) completeDomain) (by
    constructor
    · intro h i j
      rcases Nat.lt_or_ge i g.length with hi | hi
      · rcases Nat.lt_or_ge j (g.getD i []).length with hj | hj
        · exact h i hi j hj
        · have hc : getCell g i j = [] := by
            unfold getCell
            exact List.getD_eq_default _ _ hj
          rw [hc]
          exact List.nil_sublist _
      · have hrow : g.getD i [] = [] := List.getD_eq_default _ _ hi
        have hc : getCell g i j = [] := by
          unfold getCell
          rw [hrow]
          rfl
        rw [hc]
        exact List.nil_sublist _
    · intro h i hi j hj
      exact h i j)

instance decidableValidPuzzleStr (s : List Char) : Decidable (ValidPuzzleStr s) := by
  unfold ValidPuzzleStr
  infer_instance

/-- The conjunction of the three state invariants every grid operation
of the solver preserves: domains only shrink, no empty domain is
created, and the 9x9 shape is preserved. -/
def GridInv (g1 g : GridT) : Prop :=
  GridLe g1 g ∧ NoNewEmpty g1 g ∧ (Shape9 g → Shape9 g1)

/-- A solution of the puzzle whose initial grid is `g0`: a solved 9x9
grid, with non-empty cells, each contained in the initial domain. -/
def IsSolutionOf (g0 g : GridT) : Prop :=
  Shape9 g ∧ Grid.is_solved g = true ∧ GridLe g g0 ∧ NonEmptyGrid g

namespace AC3

/-- `consistencyF` with the pop position made explicit: at each step the
strategy `pick` chooses which worklist element to pop (reduced modulo
the worklist length, so every strategy is total).  `pick = fun _ _ => 0`
recovers the front-popping `consistencyF`. -/
def consistencyPickF : Nat → (GridT → List Coord → Nat) → GridT → List Coord → GridT × Bool
  | 0, _, g, _ => (g, true)
  | fuel + 1, pick, g, Q =>
    match Q with
    | [] => (g, true)
    | _ :: _ =>
      let k := pick g Q % Q.length
      let rc := Q.getD k (0, 0)
      let rest := Q.eraseIdx k
      match remove_domain_unit g rc.1 rc.2 with
      | (some ul, g1) =>
        match remove_domain_column g1 rc.1 rc.2 with
        | (some cl, g2) =>
          match remove_domain_row g2 rc.1 rc.2 with
          | (some rl, g3) => consistencyPickF fuel pick g3 (addAll rest (ul ++ cl ++ rl))
          | (none, g3) => (g3, false)
        | (none, g2) => ((remove_domain_row g2 rc.1 rc.2).2, false)
      | (none, g1) =>
        ((remove_domain_row (remove_domain_column g1 rc.1 rc.2).2 rc.1 rc.2).2, false)

/-- `AC3.consistency` with an explicit pop strategy. -/
def consistencyPick (pick : GridT → List Coord → Nat) (g : GridT) (Q : List Coord) :
    GridT × Bool :=
  consistencyPickF (2 * gsize g + Q.length + 1) pick g Q

end AC3

/-- `p` is a peer of the cell `(r, c)`: a different in-range cell in the
same row, column, or 3x3 box.  For `r, c < 9` these are exactly the
cells the three removal passes write to. -/
def Peer (r c : Nat) (p : Coord) : Prop :=
  ¬(p.1 = r ∧ p.2 = c) ∧ p.1 < 9 ∧ p.2 < 9 ∧
    (p.1 = r ∨ p.2 = c ∨ (p.1 / 3 = r / 3 ∧ p.2 / 3 = c / 3))

instance decidablePeer (r c : Nat) (p : Coord) : Decidable (Peer r c p) := by
  unfold Peer
  infer_instance

/-- Some peer of `(r, c)` already holds exactly the singleton `[d]`:
propagating `(r, c)` from such a grid drives a domain empty. -/
def PeerConflict (g : GridT) (r c : Nat) (d : Char) : Prop :=
  ∃ p, Peer r c p ∧ getCell g p.1 p.2 = [d]

/-- `g1` is `g0` with `d` filtered out of the cells in `S` and nothing
else changed (value-level description of a partially applied removal). -/
def Covered (g0 g1 : GridT) (d : Char) (S : Coord → Prop) : Prop :=
  (∀ p, S p → getCell g1 p.1 p.2 = (getCell g0 p.1 p.2).filter (· ≠ d)) ∧
  (∀ p, ¬S p → getCell g1 p.1 p.2 = getCell g0 p.1 p.2)

/-- Equal row structure (used to upgrade cellwise equality to equality
of the grid values). -/
def ShapeEq (a b : GridT) : Prop :=
  a.length = b.length ∧ ∀ i, (a.getD i []).length = (b.getD i []).length

/-- The worklist invariant maintained by the solver: digit domains that
are never empty, a duplicate-free worklist, and every worklist entry an
in-range singleton cell. -/
def WSInv (g : GridT) (Q : List Coord) : Prop :=
  DigitsGrid g ∧ NonEmptyGrid g ∧ Q.Nodup ∧
    ∀ q ∈ Q, q.1 < 9 ∧ q.2 < 9 ∧ (getCell g q.1 q.2).length = 1

instance decidableWSInv (g : GridT) (Q : List Coord) : Decidable (WSInv g Q) := by
  unfold WSInv
  infer_instance

/-- Agreement of two `consistency` outcomes: same verdict, and the same
grid when the verdict is success. -/
def ResultEq (x y : GridT × Bool) : Prop := x.2 = y.2 ∧ (x.2 = true → x.1 = y.1)

/-! ## Concrete inputs used in the counterexamples and witnesses -/

/-- A complete valid Sudoku solution, written as an 81-character row-major
string (the cyclic pattern). -/
def solvedStr : List Char :=
  ("123456789456789123789123456231564897564897231897231564312645978645978312978312645").toList

/-- The example puzzle from the source's docstring. -/
def exampleStr : List Char :=
  ("4.....8.5.3..........7......2.....6.....8.4......1.......6.3.7.5..2.....1.4......").toList

/-- A multi-solution puzzle on which FirstAvailable and MRV find
different solutions. -/
def divergStr : List Char :=
  (".........3...489.58.4....7.925..1.8.6.8259.3.173....5..59..7864.8.5..3.773186.59.").toList

/-- An 82-character (hence invalid) puzzle string. -/
def badLenStr : List Char :=
  ("1234567894567891237891234562315648975648972318972315643126459786459783129783126455").toList

/-- The solved grid with the corner domain forced empty: `is_solved`
still accepts it. -/
def gEmptyCorner : GridT := setCell (Grid.read_file solvedStr) 0 0 []

/-- The solved grid with an empty corner and a non-digit singleton. -/
def gEmptyAndLetter : GridT :=
  setCell (setCell (Grid.read_file solvedStr) 0 0 []) 8 8 (['x'])

/-- The solved grid with the centre domain forced empty. -/
def gEmptyCentre : GridT := setCell (Grid.read_file solvedStr) 4 4 []

/-- Base grid for the pop-order counterexample: every cell `uvw`. -/
def c8base : GridT := List.replicate 9 (List.replicate 9 (['u', 'v', 'w']))

/-- Grid on which the verdict of `consistency` depends on the pop order:
`(0,0) = ab`, `(0,2) = aXb`, `(5,2) = X`. -/
def gC8 : GridT :=
  setCell (setCell (setCell c8base 0 0 (['a', 'b'])) 0 2 (['a', 'X', 'b'])) 5 2 (['X'])

/-- Pop strategy: always the front element. -/
def pickFront : GridT → List Coord → Nat := fun _ _ => 0

/-- Pop strategy: always the last element. -/
def pickBack : GridT → List Coord → Nat := fun _ Q => Q.length - 1

/-! ## Lemmas about the embedding -/

theorem removeAllF_irrel : ∀ (fuel fuel' : Nat) (p s : Domain),
    s.length ≤ fuel → s.length ≤ fuel' → removeAllF fuel p s = removeAllF fuel' p s := by
  intro fuel
  induction fuel with
  | zero =>
    intro fuel' p s h h'
    have hs : s = [] := List.length_eq_zero.mp (by omega)
    subst hs
    cases fuel' <;> simp [removeAllF]
  | succ n ih =>
    intro fuel' p s h h'
    match s with
    | [] => cases fuel' <;> simp [removeAllF]
    | c :: rest =>
      match fuel' with
      | 0 => simp at h'
      | m + 1 =>
        simp only [removeAllF]
        simp only [List.length_cons] at h h'
        by_cases hp : p.isPrefixOf (c :: rest) ∧ p ≠ []
        · rw [if_pos hp, if_pos hp]
          exact ih m p _ (by simp only [List.length_drop]; omega)
            (by simp only [List.length_drop]; omega)
        · rw [if_neg hp, if_neg hp]
          rw [ih m p rest (by omega) (by omega)]

theorem removeAll_nil (p : Domain) : removeAll p [] = [] := rfl

theorem removeAll_cons (p : Domain) (c : Char) (rest : Domain) :
    removeAll p (c :: rest) =
      if p.isPrefixOf (c :: rest) ∧ p ≠ [] then
        removeAll p (rest.drop (p.length - 1))
      else
        c :: removeAll p rest := by
  unfold removeAll
  simp only [List.length_cons, removeAllF]
  by_cases hp : p.isPrefixOf (c :: rest) ∧ p ≠ []
  · rw [if_pos hp, if_pos hp]
    exact removeAllF_irrel rest.length _ p _
      (by simp only [List.length_drop]; omega) le_rfl
  · rw [if_neg hp, if_neg hp]

theorem removeAll_sublist (p s : Domain) : List.Sublist (removeAll p s) s := by
  have H : ∀ (n : Nat) (t : Domain), t.length ≤ n → List.Sublist (removeAll p t) t := by
    intro n
    induction n with
    | zero =>
      intro t ht
      match t with
      | [] => simp [removeAll_nil]
    | succ n ih =>
      intro t ht
      match t with
      | [] => simp [removeAll_nil]
      | c :: rest =>
        rw [removeAll_cons]
        by_cases hp : p.isPrefixOf (c :: rest) ∧ p ≠ []
        · rw [if_pos hp]
          have h1 := ih (rest.drop (p.length - 1))
            (by simp only [List.length_drop]; simp at ht; omega)
          exact (h1.trans (List.drop_sublist _ _)).trans (List.sublist_cons_self c rest)
        · rw [if_neg hp]
          exact (ih rest (by simp at ht; omega)).cons₂ c
  exact H s.length s le_rfl

theorem removeAll_length_le (p s : Domain) : (removeAll p s).length ≤ s.length :=
  (removeAll_sublist p s).length_le

theorem sum_map_set {α : Type} (f : α → Nat) (d : α) :
    ∀ (l : List α) (j : Nat) (v : α), j < l.length →
      ((l.set j v).map f).sum + f (l.getD j d) = (l.map f).sum + f v := by
  intro l
  induction l with
  | nil => intro j v h; simp at h
  | cons a t ih =>
    intro j v h
    cases j with
    | zero =>
      simp only [List.set_cons_zero, List.map_cons, List.sum_cons, List.getD_cons_zero]
      omega
    | succ n =>
      have hn : n < t.length := by simpa using h
      have := ih n v hn
      simp only [List.set_cons_succ, List.map_cons, List.sum_cons, List.getD_cons_succ]
      omega

theorem getCell_setCell_ne (g : GridT) (i j i1 j1 : Nat) (v : Domain)
    (h : i ≠ i1 ∨ j ≠ j1) : getCell (setCell g i j v) i1 j1 = getCell g i1 j1 := by
  unfold getCell setCell
  simp only [List.getD_eq_getElem?_getD]
  rcases h with h | h
  · rw [List.getElem?_set_ne h]
  · by_cases hi : i = i1
    · subst hi
      by_cases hb : i < g.length
      · rw [List.getElem?_set_self hb]
        simp only [Option.getD_some]
        rw [List.getElem?_set_ne h]
      · rw [List.set_eq_of_length_le (by omega)]
    · rw [List.getElem?_set_ne hi]

theorem getCell_ne_nil_bounds (g : GridT) (i j : Nat) (h : getCell g i j ≠ []) :
    i < g.length ∧ j < (g.getD i []).length := by
  unfold getCell at h
  constructor
  · by_contra hi
    have hd : g.getD i [] = [] := List.getD_eq_default _ _ (by omega)
    rw [hd] at h
    exact h rfl
  · by_contra hj
    exact h (List.getD_eq_default _ _ (by omega))

theorem getCell_setCell_self (g : GridT) (i j : Nat) (v : Domain)
    (h : getCell g i j ≠ []) : getCell (setCell g i j v) i j = v := by
  obtain ⟨hi, hj⟩ := getCell_ne_nil_bounds g i j h
  unfold getCell setCell
  simp only [List.getD_eq_getElem?_getD]
  rw [List.getElem?_set_self hi]
  simp only [Option.getD_some]
  rw [List.getElem?_set_self (by simpa [List.getD_eq_getElem?_getD] using hj)]
  rfl

theorem setCell_length (g : GridT) (i j : Nat) (v : Domain) :
    (setCell g i j v).length = g.length := by
  unfold setCell
  simp

theorem setCell_shape (g : GridT) (i j : Nat) (v : Domain) (h : Shape9 g) :
    Shape9 (setCell g i j v) := by
  obtain ⟨h1, h2⟩ := h
  refine ⟨by rw [setCell_length, h1], ?_⟩
  intro r hr
  by_cases hi : i < g.length
  · unfold setCell at hr
    rcases List.mem_or_eq_of_mem_set hr with hmem | heq
    · exact h2 r hmem
    · subst heq
      rw [List.length_set]
      have hg : g.getD i [] = g[i] := by
        rw [List.getD_eq_getElem?_getD, List.getElem?_eq_getElem hi]
        rfl
      rw [hg]
      exact h2 _ (List.getElem_mem hi)
  · unfold setCell at hr
    rw [List.set_eq_of_length_le (by omega)] at hr
    exact h2 r hr

theorem gridLe_refl (g : GridT) : GridLe g g := fun _ _ => List.Sublist.refl _

theorem gridLe_trans {a b c : GridT} (h1 : GridLe a b) (h2 : GridLe b c) : GridLe a c :=
  fun i j => (h1 i j).trans (h2 i j)

theorem noNewEmpty_refl (g : GridT) : NoNewEmpty g g := fun _ _ h => h

theorem noNewEmpty_trans {a b c : GridT} (h1 : NoNewEmpty a b) (h2 : NoNewEmpty b c) :
    NoNewEmpty a c := fun i j h => h2 i j (h1 i j h)

theorem gridInv_refl (g : GridT) : GridInv g g :=
  ⟨gridLe_refl g, noNewEmpty_refl g, id⟩

theorem gridInv_trans {a b c : GridT} (h1 : GridInv a b) (h2 : GridInv b c) : GridInv a c :=
  ⟨gridLe_trans h1.1 h2.1, noNewEmpty_trans h1.2.1 h2.2.1, fun h => h1.2.2 (h2.2.2 h)⟩

theorem getCell_setCell (g : GridT) (i j : Nat) (v : Domain) :
    getCell (setCell g i j v) i j = v ∨ getCell (setCell g i j v) i j = getCell g i j := by
  by_cases hi : i < g.length
  · by_cases hj : j < (g.getD i []).length
    · left
      unfold getCell setCell
      simp only [List.getD_eq_getElem?_getD]
      rw [List.getElem?_set_self hi]
      simp only [Option.getD_some]
      rw [List.getElem?_set_self (by simpa [List.getD_eq_getElem?_getD] using hj)]
      rfl
    · right
      unfold getCell setCell
      simp only [List.getD_eq_getElem?_getD]
      rw [List.getElem?_set_self hi]
      simp only [Option.getD_some]
      rw [List.set_eq_of_length_le (by simpa [List.getD_eq_getElem?_getD] using hj)]
  · right
    unfold setCell
    rw [List.set_eq_of_length_le (by omega)]

theorem setCell_gridInv (g : GridT) (i j : Nat) (v : Domain)
    (hv : List.Sublist v (getCell g i j)) (hne : v ≠ []) : GridInv (setCell g i j v) g := by
  refine ⟨?_, ?_, setCell_shape g i j v⟩
  · intro a b
    by_cases hab : i = a ∧ j = b
    · obtain ⟨rfl, rfl⟩ := hab
      rcases getCell_setCell g i j v with hc | hc
      · rw [hc]; exact hv
      · rw [hc]
    · rw [getCell_setCell_ne g i j a b v (by tauto)]
  · intro a b hb
    by_cases hab : i = a ∧ j = b
    · obtain ⟨rfl, rfl⟩ := hab
      rcases getCell_setCell g i j v with hc | hc
      · rw [hc] at hb; exact absurd hb hne
      · rw [hc] at hb; exact hb
    · rw [getCell_setCell_ne g i j a b v (by tauto)] at hb
      exact hb

namespace AC3

theorem passAux_inv (row col : Nat) :
    ∀ (ts : List Coord) (g : GridT) (acc : List Coord),
      GridInv (passAux g row col ts acc).2 g := by
  intro ts
  induction ts with
  | nil => intro g acc; exact gridInv_refl g
  | cons t rest ih =>
    intro g acc
    obtain ⟨i, j⟩ := t
    rw [passAux]
    by_cases hskip : i = row ∧ j = col
    · rw [if_pos hskip]; exact ih g acc
    · rw [if_neg hskip]
      by_cases hz : (removeAll (getCell g row col) (getCell g i j)).length = 0
      · rw [if_pos hz]; exact gridInv_refl g
      · rw [if_neg hz]
        exact gridInv_trans (ih _ _)
          (setCell_gridInv g i j _ (removeAll_sublist _ _)
            (by intro hc; rw [hc] at hz; exact hz rfl))

theorem remove_domain_unit_inv (g : GridT) (r c : Nat) :
    GridInv (remove_domain_unit g r c).2 g := passAux_inv r c _ g []

theorem remove_domain_column_inv (g : GridT) (r c : Nat) :
    GridInv (remove_domain_column g r c).2 g := passAux_inv r c _ g []

theorem remove_domain_row_inv (g : GridT) (r c : Nat) :
    GridInv (remove_domain_row g r c).2 g := passAux_inv r c _ g []

theorem consistencyF_inv : ∀ (fuel : Nat) (g : GridT) (Q : List Coord),
    GridInv (consistencyF fuel g Q).1 g := by
  intro fuel
  induction fuel with
  | zero => intro g Q; exact gridInv_refl g
  | succ n ih =>
    intro g Q
    match Q with
    | [] => exact gridInv_refl g
    | (r, c) :: rest =>
      show GridInv (consistencyF (n + 1) g ((r, c) :: rest)).1 g
      simp only [consistencyF]
      have hu : GridInv (remove_domain_unit g r c).2 g := remove_domain_unit_inv g r c
      match h1 : remove_domain_unit g r c with
      | (none, g1) =>
        rw [h1] at hu
        show GridInv (remove_domain_row (remove_domain_column g1 r c).2 r c).2 g
        exact gridInv_trans (gridInv_trans (remove_domain_row_inv _ r c)
          (remove_domain_column_inv g1 r c)) hu
      | (some ul, g1) =>
        rw [h1] at hu
        simp only []
        have hc : GridInv (remove_domain_column g1 r c).2 g1 := remove_domain_column_inv g1 r c
        match h2 : remove_domain_column g1 r c with
        | (none, g2) =>
          rw [h2] at hc
          show GridInv (remove_domain_row g2 r c).2 g
          exact gridInv_trans (gridInv_trans (remove_domain_row_inv g2 r c) hc) hu
        | (some cl, g2) =>
          rw [h2] at hc
          simp only []
          have hr : GridInv (remove_domain_row g2 r c).2 g2 := remove_domain_row_inv g2 r c
          match h3 : remove_domain_row g2 r c with
          | (none, g3) =>
            rw [h3] at hr
            show GridInv g3 g
            exact gridInv_trans (gridInv_trans (gridInv_refl g3) hr) (gridInv_trans hc hu)
          | (some rl, g3) =>
            rw [h3] at hr
            show GridInv (consistencyF n g3 (addAll rest (ul ++ cl ++ rl))).1 g
            exact gridInv_trans (ih g3 (addAll rest (ul ++ cl ++ rl)))
              (gridInv_trans hr (gridInv_trans hc hu))

theorem consistency_inv (g : GridT) (Q : List Coord) : GridInv (consistency g Q).1 g :=
  consistencyF_inv _ g Q

theorem pre_process_consistency_inv (g : GridT) :
    GridInv (pre_process_consistency g).1 g := consistency_inv g _

end AC3

namespace Backtracking

theorem tryDigits_inv (recur : GridT → Option (Option GridT)) (g : GridT) (r c : Nat)
    (hrec : ∀ ng g2, recur ng = some (some g2) →
      GridInv g2 ng ∧ Grid.is_solved g2 = true) :
    ∀ (ds : List Char) (g1 : GridT), (∀ d ∈ ds, d ∈ getCell g r c) →
      tryDigits recur g r c ds = some (some g1) →
      GridInv g1 g ∧ Grid.is_solved g1 = true := by
  intro ds
  induction ds with
  | nil => intro g1 hds h; simp [tryDigits] at h
  | cons d rest ih =>
    intro g1 hds h
    rw [tryDigits] at h
    by_cases hivc : Grid.is_value_consistent g [d] r c
    · rw [if_pos hivc] at h
      have hset : GridInv (setCell (Grid.copy g) r c [d]) g :=
        setCell_gridInv g r c [d]
          (List.singleton_sublist.mpr (hds d (List.mem_cons_self d rest)))
          (by simp)
      have hcons : GridInv (AC3.consistency (setCell (Grid.copy g) r c [d]) [(r, c)]).1
          (setCell (Grid.copy g) r c [d]) := AC3.consistency_inv _ _
      rcases hc : AC3.consistency (setCell (Grid.copy g) r c [d]) [(r, c)] with ⟨ng, ok⟩
      rw [hc] at h
      rw [hc] at hcons
      cases ok with
      | false =>
        exact ih g1 (fun e he => hds e (List.mem_cons_of_mem _ he)) h
      | true =>
        simp only [] at h
        rcases hb : recur ng with _ | r2
        · rw [hb] at h
          exact absurd h (by simp)
        · rw [hb] at h
          cases r2 with
          | none =>
            exact ih g1 (fun e he => hds e (List.mem_cons_of_mem _ he)) h
          | some sol =>
            have hs := hrec ng sol hb
            have heq : some (some sol) = some (some g1) := h
            have hsg : sol = g1 := by simpa using heq
            subst hsg
            exact ⟨gridInv_trans hs.1 (gridInv_trans hcons hset), hs.2⟩
    · rw [if_neg hivc] at h
      exact ih g1 (fun e he => hds e (List.mem_cons_of_mem _ he)) h

theorem backtrack_searchF_inv : ∀ (fuel : Nat) (sel : VarSelector) (g g1 : GridT),
    backtrack_searchF fuel g sel = some (some g1) →
    GridInv g1 g ∧ Grid.is_solved g1 = true := by
  intro fuel
  induction fuel with
  | zero => intro sel g g1 h; simp [backtrack_searchF] at h
  | succ n ih =>
    intro sel g g1 h
    rw [backtrack_searchF] at h
    by_cases hs : Grid.is_solved g
    · rw [if_pos hs] at h
      have : g = g1 := by simpa using h
      subst this
      exact ⟨gridInv_refl g, hs⟩
    · rw [if_neg hs] at h
      rcases hv : select_variable sel g with _ | ⟨r, c⟩
      · rw [hv] at h
        exact absurd h (by simp)
      · rw [hv] at h
        exact tryDigits_inv _ g r c (fun ng g2 hb => ih sel ng g2 hb)
          (getCell g r c) g1 (fun d hd => hd) h

theorem search_inv (g : GridT) (sel : VarSelector) (g1 : GridT)
    (h : search g sel = some g1) :
    GridInv g1 g ∧ Grid.is_solved g1 = true := by
  unfold search at h
  rcases hb : backtrack_searchF 82 (AC3.pre_process_consistency g).1 sel with _ | r2
  · rw [hb] at h
    simp at h
  · rw [hb] at h
    cases r2 with
    | none => simp at h
    | some g2 =>
      simp only [Option.getD_some] at h
      obtain rfl : g2 = g1 := by simpa using h
      have h1 := backtrack_searchF_inv 82 sel _ g2 hb
      exact ⟨gridInv_trans h1.1 (AC3.pre_process_consistency_inv g), h1.2⟩

end Backtracking


namespace AC3

theorem gsize_setCell (g : GridT) (i j : Nat) (v : Domain)
    (h : getCell g i j ≠ []) :
    gsize (setCell g i j v) + (getCell g i j).length = gsize g + v.length := by
  have hi : i < g.length := by
    by_contra hi
    have hd : g.getD i [] = [] := List.getD_eq_default _ _ (by omega)
    apply h
    unfold getCell
    rw [hd]
    simp
  have hj : j < (g.getD i []).length := by
    by_contra hj
    have hd : (g.getD i []).getD j [] = [] := List.getD_eq_default _ _ (by omega)
    apply h
    unfold getCell
    rw [hd]
  have hrow : rowSize ((g.getD i []).set j v) + ((g.getD i []).getD j []).length
      = rowSize (g.getD i []) + v.length := by
    unfold rowSize
    exact sum_map_set List.length [] (g.getD i []) j v hj
  have houter : gsize (g.set i ((g.getD i []).set j v)) + rowSize (g.getD i [])
      = gsize g + rowSize ((g.getD i []).set j v) := by
    unfold gsize
    exact sum_map_set rowSize [] g i _ hi
  unfold setCell getCell
  omega

theorem gsize_setCell_le (g : GridT) (i j : Nat) (v : Domain)
    (h : getCell g i j ≠ []) (hv : v.length ≤ (getCell g i j).length) :
    gsize (setCell g i j v) ≤ gsize g := by
  have := gsize_setCell g i j v h
  omega

theorem passAux_gsize_le (row col : Nat) :
    ∀ (ts : List Coord) (g : GridT) (acc : List Coord),
      gsize (passAux g row col ts acc).2 ≤ gsize g := by
  intro ts
  induction ts with
  | nil => intro g acc; simp [passAux]
  | cons t rest ih =>
    intro g acc
    obtain ⟨i, j⟩ := t
    rw [passAux]
    by_cases hskip : i = row ∧ j = col
    · rw [if_pos hskip]; exact ih g acc
    · rw [if_neg hskip]
      by_cases hz : (removeAll (getCell g row col) (getCell g i j)).length = 0
      · rw [if_pos hz]
      · rw [if_neg hz]
        have hne : getCell g i j ≠ [] := by
          intro hc
          rw [hc, removeAll_nil] at hz
          simp at hz
        have hle := removeAll_length_le (getCell g row col) (getCell g i j)
        exact le_trans (ih _ _) (gsize_setCell_le g i j _ hne hle)

theorem passAux_gsize_some (row col : Nat) :
    ∀ (ts : List Coord) (g : GridT) (acc l : List Coord) (g' : GridT),
      passAux g row col ts acc = (some l, g') →
      gsize g' + l.length ≤ gsize g + acc.length := by
  intro ts
  induction ts with
  | nil =>
    intro g acc l g' h
    simp [passAux] at h
    obtain ⟨h1, h2⟩ := h
    subst h1; subst h2; omega
  | cons t rest ih =>
    intro g acc l g' h
    obtain ⟨i, j⟩ := t
    rw [passAux] at h
    by_cases hskip : i = row ∧ j = col
    · rw [if_pos hskip] at h; exact ih g acc l g' h
    · rw [if_neg hskip] at h
      by_cases hz : (removeAll (getCell g row col) (getCell g i j)).length = 0
      · rw [if_pos hz] at h
        simp at h
      · rw [if_neg hz] at h
        have hne : getCell g i j ≠ [] := by
          intro hc
          rw [hc, removeAll_nil] at hz
          simp at hz
        have hset := gsize_setCell g i j
          (removeAll (getCell g row col) (getCell g i j)) hne
        have hle := removeAll_length_le (getCell g row col) (getCell g i j)
        have hrec := ih _ _ l g' h
        by_cases hnew : (removeAll (getCell g row col) (getCell g i j)).length = 1 ∧
            1 < (getCell g i j).length
        · rw [if_pos hnew] at hrec
          simp only [List.length_append, List.length_cons, List.length_nil] at hrec
          omega
        · rw [if_neg hnew] at hrec
          omega

theorem addAll_length : ∀ (news q : List Coord), (addAll q news).length ≤ q.length + news.length := by
  intro news
  induction news with
  | nil => intro q; simp [addAll]
  | cons n rest ih =>
    intro q
    simp only [addAll, List.foldl_cons]
    by_cases hmem : n ∈ q
    · rw [if_pos hmem]
      have := ih q
      simp only [addAll] at this
      simp only [List.length_cons]
      omega
    · rw [if_neg hmem]
      have := ih (q ++ [n])
      simp only [addAll] at this
      simp only [List.length_append, List.length_cons, List.length_nil] at *
      omega

theorem remove_domain_unit_gsize_le (g : GridT) (r c : Nat) :
    gsize (remove_domain_unit g r c).2 ≤ gsize g := passAux_gsize_le r c _ g []

theorem remove_domain_column_gsize_le (g : GridT) (r c : Nat) :
    gsize (remove_domain_column g r c).2 ≤ gsize g := passAux_gsize_le r c _ g []

theorem remove_domain_row_gsize_le (g : GridT) (r c : Nat) :
    gsize (remove_domain_row g r c).2 ≤ gsize g := passAux_gsize_le r c _ g []

theorem remove_domain_unit_gsize_some (g : GridT) (r c : Nat) (l : List Coord) (g1 : GridT)
    (h : remove_domain_unit g r c = (some l, g1)) : gsize g1 + l.length ≤ gsize g := by
  have := passAux_gsize_some r c (boxCoords r c) g [] l g1 h
  simpa using this

theorem remove_domain_column_gsize_some (g : GridT) (r c : Nat) (l : List Coord) (g1 : GridT)
    (h : remove_domain_column g r c = (some l, g1)) : gsize g1 + l.length ≤ gsize g := by
  have := passAux_gsize_some r c ((List.range width).map fun j => (j, c)) g [] l g1 h
  simpa using this

theorem remove_domain_row_gsize_some (g : GridT) (r c : Nat) (l : List Coord) (g1 : GridT)
    (h : remove_domain_row g r c = (some l, g1)) : gsize g1 + l.length ≤ gsize g := by
  have := passAux_gsize_some r c ((List.range width).map fun j => (r, j)) g [] l g1 h
  simpa using this

theorem consistencyF_irrel : ∀ (fuel fuel' : Nat) (g : GridT) (Q : List Coord),
    2 * gsize g + Q.length < fuel → 2 * gsize g + Q.length < fuel' →
    consistencyF fuel g Q = consistencyF fuel' g Q := by
  intro fuel
  induction fuel with
  | zero => intro fuel' g Q h; omega
  | succ n ih =>
    intro fuel' g Q h h'
    match fuel' with
    | 0 => omega
    | m + 1 =>
      match Q with
      | [] => simp [consistencyF]
      | (r, c) :: rest =>
        simp only [consistencyF]
        match h1 : remove_domain_unit g r c with
        | (none, g1) => rfl
        | (some ul, g1) =>
          simp only []
          match h2 : remove_domain_column g1 r c with
          | (none, g2) => rfl
          | (some cl, g2) =>
            simp only []
            match h3 : remove_domain_row g2 r c with
            | (none, g3) => rfl
            | (some rl, g3) =>
              simp only []
              have hu := remove_domain_unit_gsize_some g r c ul g1 h1
              have hc := remove_domain_column_gsize_some g1 r c cl g2 h2
              have hr := remove_domain_row_gsize_some g2 r c rl g3 h3
              have ha := addAll_length (ul ++ cl ++ rl) rest
              simp only [List.length_append] at ha
              simp only [List.length_cons] at h h'
              exact ih m g3 (addAll rest (ul ++ cl ++ rl)) (by omega) (by omega)

/-- Unfolding equation for `consistency` on the empty worklist. -/
theorem consistency_nil (g : GridT) : consistency g [] = (g, true) := by
  simp [consistency, consistencyF]

/-- Unfolding equation for `consistency` on a pop: run the three passes
and either fail or continue on the extended worklist. -/
theorem consistency_cons (g : GridT) (r c : Nat) (rest : List Coord) :
    consistency g ((r, c) :: rest) =
      match remove_domain_unit g r c with
      | (some ul, g1) =>
        match remove_domain_column g1 r c with
        | (some cl, g2) =>
          match remove_domain_row g2 r c with
          | (some rl, g3) => consistency g3 (addAll rest (ul ++ cl ++ rl))
          | (none, g3) => (g3, false)
        | (none, g2) => ((remove_domain_row g2 r c).2, false)
      | (none, g1) => ((remove_domain_row (remove_domain_column g1 r c).2 r c).2, false) := by
  show consistencyF (2 * gsize g + ((r, c) :: rest).length + 1) g ((r, c) :: rest) = _
  simp only [consistencyF]
  match h1 : remove_domain_unit g r c with
  | (none, g1) => rfl
  | (some ul, g1) =>
    simp only []
    match h2 : remove_domain_column g1 r c with
    | (none, g2) => rfl
    | (some cl, g2) =>
      simp only []
      match h3 : remove_domain_row g2 r c with
      | (none, g3) => rfl
      | (some rl, g3) =>
        have hu := remove_domain_unit_gsize_some g r c ul g1 h1
        have hc := remove_domain_column_gsize_some g1 r c cl g2 h2
        have hr := remove_domain_row_gsize_some g2 r c rl g3 h3
        have ha := addAll_length (ul ++ cl ++ rl) rest
        simp only [List.length_append] at ha
        exact consistencyF_irrel (2 * gsize g + ((r, c) :: rest).length)
          (2 * gsize g3 + (addAll rest (ul ++ cl ++ rl)).length + 1)
          g3 (addAll rest (ul ++ cl ++ rl))
          (by simp only [List.length_cons]; omega) (by omega)

end AC3

theorem nonEmptyGrid_of (g1 g : GridT) (hg : NonEmptyGrid g) (h : NoNewEmpty g1 g) :
    NonEmptyGrid g1 := by
  intro i j hi hj hnil
  exact hg i j hi hj (h i j hnil)

theorem digitsGrid_of (g1 g : GridT) (hg : DigitsGrid g) (h : GridLe g1 g) :
    DigitsGrid g1 := fun i j => (h i j).trans (hg i j)

/-! ## Order-independence of the worklist loop: basic filter lemmas -/

theorem filter_ne_of_not_mem (s : Domain) (d : Char) (h : d ∉ s) :
    s.filter (· ≠ d) = s := by
  induction s with
  | nil => rfl
  | cons c rest ih =>
    simp only [List.mem_cons, not_or] at h
    have hc : c ≠ d := fun hcd => h.1 hcd.symm
    rw [List.filter_cons, if_pos (by simpa using hc), ih h.2]

theorem filter_ne_length (d : Char) : ∀ (s : Domain), s.Nodup →
    (s.filter (· ≠ d)).length + (if d ∈ s then 1 else 0) = s.length := by
  intro s
  induction s with
  | nil => simp
  | cons c rest ih =>
    intro hnd
    rw [List.nodup_cons] at hnd
    by_cases hcd : c = d
    · subst hcd
      rw [List.filter_cons, if_neg (by simp)]
      rw [filter_ne_of_not_mem rest c hnd.1]
      simp
    · rw [List.filter_cons, if_pos (by simp [hcd])]
      have hrec := ih hnd.2
      simp only [List.length_cons, List.mem_cons]
      by_cases hdm : d ∈ rest
      · simp only [if_pos hdm] at hrec
        rw [if_pos (Or.inr hdm)]
        omega
      · simp only [if_neg hdm] at hrec
        rw [if_neg (by
          intro hmem
          rcases hmem with h | h
          · exact hcd h.symm
          · exact hdm h)]
        omega

theorem nodup_of_digits (g : GridT) (hd : DigitsGrid g) (i j : Nat) :
    (getCell g i j).Nodup := List.Nodup.sublist (hd i j) (by decide)

theorem removeAll_singleton (d : Char) (s : Domain) :
    removeAll [d] s = s.filter (· ≠ d) := by
  induction s with
  | nil => rfl
  | cons c rest ih =>
    rw [removeAll_cons]
    by_cases hcd : d = c
    · subst hcd
      rw [if_pos ⟨by simp [List.isPrefixOf], by simp⟩]
      simp only [List.length_cons, List.length_nil, Nat.sub_self, List.drop_zero]
      rw [ih, List.filter_cons, if_neg (by simp)]
    · rw [if_neg (by
        intro hand
        apply hcd
        have := hand.1
        simp only [List.isPrefixOf, List.isPrefixOf_nil_left, Bool.and_true] at this
        simpa using this)]
      rw [ih, List.filter_cons, if_pos (by simp; exact fun h => hcd h.symm)]

theorem not_mem_filter_ne (s : Domain) (d : Char) : d ∉ s.filter (· ≠ d) := by simp

theorem mem_filter_ne (s : Domain) (d e : Char) :
    e ∈ s.filter (· ≠ d) ↔ e ∈ s ∧ e ≠ d := by
  simp

theorem filter_ne_comm (s : Domain) (d e : Char) :
    (s.filter (· ≠ d)).filter (· ≠ e) = (s.filter (· ≠ e)).filter (· ≠ d) := by
  induction s with
  | nil => rfl
  | cons c rest ih =>
    by_cases hcd : c = d
    · by_cases hce : c = e
      · simp only [List.filter_cons]
        rw [if_neg (by simp [hcd]), if_neg (by simp [hce])]
        exact ih
      · simp only [List.filter_cons]
        rw [if_neg (by simp [hcd]), if_pos (by simpa using hce)]
        rw [List.filter_cons, if_neg (by simp [hcd])]
        exact ih
    · by_cases hce : c = e
      · simp only [List.filter_cons]
        rw [if_pos (by simpa using hcd), if_neg (by simp [hce])]
        rw [List.filter_cons, if_neg (by simp [hce])]
        exact ih
      · simp only [List.filter_cons]
        rw [if_pos (by simpa using hcd), if_pos (by simpa using hce)]
        rw [List.filter_cons, if_pos (by simpa using hce),
          List.filter_cons, if_pos (by simpa using hcd)]
        rw [ih]

theorem filter_ne_idem (s : Domain) (d : Char) :
    (s.filter (· ≠ d)).filter (· ≠ d) = s.filter (· ≠ d) :=
  List.filter_eq_self.mpr (fun a ha => (List.mem_filter.mp ha).2)

theorem eq_singleton_of_filter_nil (s : Domain) (d : Char) (hnd : s.Nodup)
    (hne : s ≠ []) (h : s.filter (· ≠ d) = []) : s = [d] := by
  have hl := filter_ne_length d s hnd
  rw [h] at hl
  simp only [List.length_nil, Nat.zero_add] at hl
  by_cases hdm : d ∈ s
  · rw [if_pos hdm] at hl
    obtain ⟨c, rfl⟩ := List.length_eq_one.mp hl.symm
    simp only [List.mem_singleton] at hdm
    rw [hdm]
  · rw [if_neg hdm] at hl
    exact absurd (List.length_eq_zero.mp hl.symm) hne

theorem filter_ne_ne_nil (s : Domain) (d : Char) (hnd : s.Nodup) (hne : s ≠ [])
    (hs : s ≠ [d]) : s.filter (· ≠ d) ≠ [] :=
  fun h => hs (eq_singleton_of_filter_nil s d hnd hne h)

theorem length_two_cases (s : Domain) (h : s.length = 2) : ∃ a b, s = [a, b] :=
  List.length_eq_two.mp h

theorem filter_eq_singleton_cases (s : Domain) (d e : Char) (hnd : s.Nodup)
    (h : s.filter (· ≠ d) = [e]) :
    (s = [e] ∧ e ≠ d) ∨
      (s.length = 2 ∧ d ∈ s ∧ e ∈ s ∧ e ≠ d ∧ s.filter (· ≠ e) = [d]) := by
  have hmem : e ∈ s ∧ e ≠ d := by
    have : e ∈ s.filter (· ≠ d) := by rw [h]; simp
    simpa using this
  have hl := filter_ne_length d s hnd
  rw [h] at hl
  simp only [List.length_singleton] at hl
  by_cases hdm : d ∈ s
  · right
    rw [if_pos hdm] at hl
    have hs2 : s.length = 2 := by omega
    obtain ⟨a, b, rfl⟩ := length_two_cases s hs2
    refine ⟨hs2, hdm, hmem.1, hmem.2, ?_⟩
    rw [List.nodup_cons] at hnd
    simp only [List.mem_singleton] at hnd
    simp only [List.mem_cons, List.mem_singleton, List.not_mem_nil, or_false] at hdm hmem
    rcases hdm with rfl | rfl
    · rcases hmem.1 with rfl | rfl
      · exact absurd rfl hmem.2
      · simp [List.filter_cons, hmem.2, Ne.symm hmem.2]
    · rcases hmem.1 with rfl | rfl
      · simp [List.filter_cons, hmem.2, Ne.symm hmem.2]
      · exact absurd rfl hmem.2
  · left
    rw [filter_ne_of_not_mem s d hdm] at h
    exact ⟨h, hmem.2⟩

/-! ## Worklist set lemmas -/

namespace AC3

theorem mem_addAll : ∀ (news q : List Coord) (p : Coord),
    p ∈ addAll q news ↔ p ∈ q ∨ p ∈ news := by
  intro news
  induction news with
  | nil => intro q p; simp [addAll]
  | cons n rest ih =>
    intro q p
    simp only [addAll, List.foldl_cons]
    by_cases hmem : n ∈ q
    · rw [if_pos hmem]
      have hq := ih q p
      simp only [addAll] at hq
      rw [hq]
      simp only [List.mem_cons]
      constructor
      · rintro (h | h)
        · exact Or.inl h
        · exact Or.inr (Or.inr h)
      · rintro (h | h | h)
        · exact Or.inl h
        · exact Or.inl (by rw [h]; exact hmem)
        · exact Or.inr h
    · rw [if_neg hmem]
      have hq := ih (q ++ [n]) p
      simp only [addAll] at hq
      rw [hq]
      simp only [List.mem_append, List.mem_singleton, List.mem_cons]
      tauto

theorem nodup_addAll : ∀ (news q : List Coord), q.Nodup → (addAll q news).Nodup := by
  intro news
  induction news with
  | nil => intro q h; simpa [addAll] using h
  | cons n rest ih =>
    intro q h
    simp only [addAll, List.foldl_cons]
    by_cases hmem : n ∈ q
    · rw [if_pos hmem]
      exact ih q h
    · rw [if_neg hmem]
      apply ih
      rw [List.nodup_append]
      refine ⟨h, List.nodup_singleton n, ?_⟩
      intro a ha hb
      simp only [List.mem_singleton] at hb
      rw [hb] at ha
      exact hmem ha

end AC3

theorem getD_mem_of_lt (Q : List Coord) (k : Nat) (h : k < Q.length) :
    Q.getD k (0, 0) ∈ Q := by
  rw [List.getD_eq_getElem?_getD, List.getElem?_eq_getElem h]
  exact List.getElem_mem h

theorem mem_eraseIdx_nodup : ∀ (Q : List Coord) (k : Nat), Q.Nodup → k < Q.length →
    ∀ p, p ∈ Q.eraseIdx k ↔ p ∈ Q ∧ p ≠ Q.getD k (0, 0) := by
  intro Q
  induction Q with
  | nil => intro k _ h; simp at h
  | cons a t ih =>
    intro k hnd hk p
    rw [List.nodup_cons] at hnd
    match k with
    | 0 =>
      simp only [List.eraseIdx_cons_zero, List.getD_cons_zero, List.mem_cons]
      constructor
      · intro hp
        refine ⟨Or.inr hp, ?_⟩
        intro he
        exact hnd.1 (he ▸ hp)
      · rintro ⟨hp | hp, hne⟩
        · exact absurd hp hne
        · exact hp
    | k + 1 =>
      have hk2 : k < t.length := by simpa using hk
      simp only [List.eraseIdx_cons_succ, List.getD_cons_succ, List.mem_cons]
      rw [ih k hnd.2 hk2 p]
      have haq : a ≠ t.getD k (0, 0) := by
        intro he
        exact hnd.1 (he ▸ getD_mem_of_lt t k hk2)
      constructor
      · rintro (rfl | ⟨hp, hne⟩)
        · exact ⟨Or.inl rfl, haq⟩
        · exact ⟨Or.inr hp, hne⟩
      · rintro ⟨hp | hp, hne⟩
        · exact Or.inl hp
        · exact Or.inr ⟨hp, hne⟩

theorem nodup_eraseIdx (Q : List Coord) (k : Nat) (h : Q.Nodup) : (Q.eraseIdx k).Nodup :=
  List.Nodup.sublist (List.eraseIdx_sublist Q k) h

/-! ## Shape-preserving extensionality -/

theorem shapeEq_refl (g : GridT) : ShapeEq g g := ⟨rfl, fun _ => rfl⟩

theorem shapeEq_symm {a b : GridT} (h : ShapeEq a b) : ShapeEq b a :=
  ⟨h.1.symm, fun i => (h.2 i).symm⟩

theorem shapeEq_trans {a b c : GridT} (h1 : ShapeEq a b) (h2 : ShapeEq b c) : ShapeEq a c :=
  ⟨h1.1.trans h2.1, fun i => (h1.2 i).trans (h2.2 i)⟩

theorem shapeEq_setCell (g : GridT) (i j : Nat) (v : Domain) :
    ShapeEq (setCell g i j v) g := by
  refine ⟨setCell_length g i j v, ?_⟩
  intro i1
  unfold setCell
  by_cases hi : i < g.length
  · by_cases hii : i1 = i
    · subst hii
      rw [List.getD_eq_getElem?_getD, List.getElem?_set_self hi]
      simp only [Option.getD_some]
      rw [List.length_set]
    · rw [List.getD_eq_getElem?_getD, List.getElem?_set_ne (by omega),
        ← List.getD_eq_getElem?_getD]
  · rw [List.set_eq_of_length_le (by omega)]

theorem grid_ext_shape (a b : GridT) (hs : ShapeEq a b)
    (hc : ∀ i j, getCell a i j = getCell b i j) : a = b := by
  apply List.ext_getElem?
  intro i
  by_cases hi : i < a.length
  · have hib : i < b.length := by rw [← hs.1]; exact hi
    rw [List.getElem?_eq_getElem hi, List.getElem?_eq_getElem hib]
    congr 1
    apply List.ext_getElem?
    intro j
    have hga : a.getD i [] = a[i] := by
      rw [List.getD_eq_getElem?_getD, List.getElem?_eq_getElem hi]
      rfl
    have hgb : b.getD i [] = b[i] := by
      rw [List.getD_eq_getElem?_getD, List.getElem?_eq_getElem hib]
      rfl
    have hrow : (a[i] : List Domain).length = (b[i] : List Domain).length := by
      rw [← hga, ← hgb]
      exact hs.2 i
    by_cases hj : j < (a[i] : List Domain).length
    · have hjb : j < (b[i] : List Domain).length := by omega
      rw [List.getElem?_eq_getElem hj, List.getElem?_eq_getElem hjb]
      have hcell := hc i j
      unfold getCell at hcell
      rw [hga, hgb] at hcell
      rw [List.getD_eq_getElem?_getD, List.getD_eq_getElem?_getD] at hcell
      rw [List.getElem?_eq_getElem hj, List.getElem?_eq_getElem hjb] at hcell
      simpa using hcell
    · rw [List.getElem?_eq_none_iff.mpr (by omega), List.getElem?_eq_none_iff.mpr (by omega)]
  · rw [List.getElem?_eq_none_iff.mpr (by omega),
      List.getElem?_eq_none_iff.mpr (by rw [← hs.1]; omega)]

namespace AC3

theorem shapeEq_passAux (row col : Nat) :
    ∀ (ts : List Coord) (g : GridT) (acc : List Coord),
      ShapeEq (passAux g row col ts acc).2 g := by
  intro ts
  induction ts with
  | nil => intro g acc; exact shapeEq_refl g
  | cons t rest ih =>
    intro g acc
    obtain ⟨i, j⟩ := t
    rw [passAux]
    by_cases hskip : i = row ∧ j = col
    · rw [if_pos hskip]
      exact ih g acc
    · rw [if_neg hskip]
      by_cases hz : (removeAll (getCell g row col) (getCell g i j)).length = 0
      · rw [if_pos hz]
        exact shapeEq_refl g
      · rw [if_neg hz]
        exact shapeEq_trans (ih _ _) (shapeEq_setCell g i j _)

end AC3

theorem getCell_setCell_ne2 (g : GridT) (i j : Nat) (v : Domain) (p : Coord)
    (h : p ≠ (i, j)) : getCell (setCell g i j v) p.1 p.2 = getCell g p.1 p.2 := by
  apply getCell_setCell_ne
  by_cases h1 : i = p.1
  · right
    intro h2
    apply h
    rw [Prod.ext_iff]
    exact ⟨h1.symm, h2.symm⟩
  · left
    exact h1

namespace AC3

/-- Full characterization of one removal pass over an arbitrary target
list, relative to the grid `g0` at the start of the pop.  `S` records
which cells previous passes of the same pop have already filtered.  If
some fresh non-skipped target still holds exactly `[d]` the pass fails;
otherwise it succeeds, the processed cells hold their `g0` domains with
`d` filtered out, untouched cells are unchanged, and the reported
newly-singleton targets are exactly the fresh targets whose `g0` domain
had length two and contained `d`. -/
theorem passAux_run (g0 : GridT) (r c : Nat) (d : Char)
    (hdg : DigitsGrid g0) (hne : NonEmptyGrid g0) (hrc : getCell g0 r c = [d]) :
    ∀ (ts : List Coord) (S : Coord → Prop) (gmid : GridT) (acc : List Coord),
      ¬S (r, c) →
      (∀ p, S p → getCell g0 p.1 p.2 ≠ [d]) →
      (∀ p, S p → getCell gmid p.1 p.2 = (getCell g0 p.1 p.2).filter (· ≠ d)) →
      (∀ p, ¬S p → getCell gmid p.1 p.2 = getCell g0 p.1 p.2) →
      (∀ p ∈ ts, p.1 < 9 ∧ p.2 < 9) →
      ((∃ p ∈ ts, ¬(p.1 = r ∧ p.2 = c) ∧ ¬S p ∧ getCell g0 p.1 p.2 = [d]) →
        (passAux gmid r c ts acc).1 = none) ∧
      ((∀ p ∈ ts, ¬(p.1 = r ∧ p.2 = c) → ¬S p → getCell g0 p.1 p.2 ≠ [d]) →
        ∃ news gout, passAux gmid r c ts acc = (some (acc ++ news), gout) ∧
          (∀ p, (S p ∨ (p ∈ ts ∧ ¬(p.1 = r ∧ p.2 = c))) →
            getCell gout p.1 p.2 = (getCell g0 p.1 p.2).filter (· ≠ d)) ∧
          (∀ p, ¬(S p ∨ (p ∈ ts ∧ ¬(p.1 = r ∧ p.2 = c))) →
            getCell gout p.1 p.2 = getCell g0 p.1 p.2) ∧
          (∀ p, p ∈ news ↔ (p ∈ ts ∧ ¬(p.1 = r ∧ p.2 = c) ∧ ¬S p ∧
            (getCell g0 p.1 p.2).length = 2 ∧ d ∈ getCell g0 p.1 p.2)) ∧
          news.Nodup) := by
  intro ts
  induction ts with
  | nil =>
    intro S gmid acc hnS hSnc hcov hout hbd
    constructor
    · rintro ⟨p, hp, -⟩
      simp at hp
    · intro hok
      refine ⟨[], gmid, by simp [passAux], ?_, ?_, by simp, List.nodup_nil⟩
      · intro p hp
        rcases hp with hS | ⟨hmem, -⟩
        · exact hcov p hS
        · simp at hmem
      · intro p hp
        exact hout p (fun hS => hp (Or.inl hS))
  | cons t rest ih =>
    intro S gmid acc hnS hSnc hcov hout hbd
    obtain ⟨i, j⟩ := t
    by_cases hskip : i = r ∧ j = c
    · rw [passAux, if_pos hskip]
      obtain ⟨ihf, ihs⟩ := ih S gmid acc hnS hSnc hcov hout
        (fun p hp => hbd p (List.mem_cons_of_mem _ hp))
      constructor
      · rintro ⟨p, hp, hnp, hnSp, hpd⟩
        rcases List.mem_cons.mp hp with rfl | hp2
        · exact absurd hskip hnp
        · exact ihf ⟨p, hp2, hnp, hnSp, hpd⟩
      · intro hok
        obtain ⟨news, gout, heq, hin, hout2, hnews, hnd⟩ :=
          ihs (fun p hp hnp hnSp => hok p (List.mem_cons_of_mem _ hp) hnp hnSp)
        refine ⟨news, gout, heq, ?_, ?_, ?_, hnd⟩
        · intro p hp
          rcases hp with hS | ⟨hmem, hnp⟩
          · exact hin p (Or.inl hS)
          · rcases List.mem_cons.mp hmem with rfl | hp2
            · exact absurd hskip hnp
            · exact hin p (Or.inr ⟨hp2, hnp⟩)
        · intro p hp
          apply hout2
          intro hq
          apply hp
          rcases hq with hS | ⟨hmem, hnp⟩
          · exact Or.inl hS
          · exact Or.inr ⟨List.mem_cons_of_mem _ hmem, hnp⟩
        · intro p
          rw [hnews p]
          constructor
          · rintro ⟨hmem, h2, h3, h4, h5⟩
            exact ⟨List.mem_cons_of_mem _ hmem, h2, h3, h4, h5⟩
          · rintro ⟨hmem, h2, h3, h4, h5⟩
            rcases List.mem_cons.mp hmem with rfl | hp2
            · exact absurd hskip h2
            · exact ⟨hp2, h2, h3, h4, h5⟩
    · rw [passAux, if_neg hskip]
      have hmidrc : getCell gmid r c = [d] := by
        rw [hout _ hnS]
        exact hrc
      have hbij := hbd (i, j) (List.mem_cons_self _ _)
      have hLne : getCell g0 i j ≠ [] := hne i j hbij.1 hbij.2
      have hLnd : (getCell g0 i j).Nodup := nodup_of_digits g0 hdg i j
      rw [hmidrc]
      by_cases hSij : S (i, j)
      · -- already-processed target: the write is a value-level no-op
        have hmij : getCell gmid i j = (getCell g0 i j).filter (· ≠ d) := hcov _ hSij
        have hLdne : getCell g0 i j ≠ [d] := hSnc _ hSij
        have hndv : removeAll [d] (getCell gmid i j) = getCell gmid i j := by
          rw [removeAll_singleton, hmij, filter_ne_idem]
        have hnz : ¬(removeAll [d] (getCell gmid i j)).length = 0 := by
          rw [hndv, hmij]
          intro hlen
          exact filter_ne_ne_nil _ d hLnd hLne hLdne (List.length_eq_zero.mp hlen)
        rw [if_neg hnz]
        have hnonew : ¬((removeAll [d] (getCell gmid i j)).length = 1 ∧
            1 < (getCell gmid i j).length) := by
          rw [hndv]
          omega
        rw [if_neg hnonew]
        have hmne : getCell gmid i j ≠ [] := by
          intro hx
          apply hnz
          rw [hndv, hx]
          rfl
        have hgm : ∀ p : Coord,
            getCell (setCell gmid i j (removeAll [d] (getCell gmid i j))) p.1 p.2 =
              getCell gmid p.1 p.2 := by
          intro p
          by_cases hpij : p = (i, j)
          · subst hpij
            rw [getCell_setCell_self gmid i j _ hmne, hndv]
          · exact getCell_setCell_ne2 gmid i j _ p hpij
        obtain ⟨ihf, ihs⟩ := ih S (setCell gmid i j (removeAll [d] (getCell gmid i j))) acc
          hnS hSnc
          (fun p hS => by rw [hgm p]; exact hcov p hS)
          (fun p hS => by rw [hgm p]; exact hout p hS)
          (fun p hp => hbd p (List.mem_cons_of_mem _ hp))
        constructor
        · rintro ⟨p, hp, hnp, hnSp, hpd⟩
          rcases List.mem_cons.mp hp with rfl | hp2
          · exact absurd hSij hnSp
          · exact ihf ⟨p, hp2, hnp, hnSp, hpd⟩
        · intro hok
          obtain ⟨news, gout, heq, hin, hout2, hnews, hnd⟩ :=
            ihs (fun p hp hnp hnSp => hok p (List.mem_cons_of_mem _ hp) hnp hnSp)
          refine ⟨news, gout, heq, ?_, ?_, ?_, hnd⟩
          · intro p hp
            rcases hp with hS | ⟨hmem, hnp⟩
            · exact hin p (Or.inl hS)
            · rcases List.mem_cons.mp hmem with rfl | hp2
              · exact hin (i, j) (Or.inl hSij)
              · exact hin p (Or.inr ⟨hp2, hnp⟩)
          · intro p hp
            apply hout2
            intro hq
            apply hp
            rcases hq with hS | ⟨hmem, hnp⟩
            · exact Or.inl hS
            · exact Or.inr ⟨List.mem_cons_of_mem _ hmem, hnp⟩
          · intro p
            rw [hnews p]
            constructor
            · rintro ⟨hmem, h2, h3, h4, h5⟩
              exact ⟨List.mem_cons_of_mem _ hmem, h2, h3, h4, h5⟩
            · rintro ⟨hmem, h2, h3, h4, h5⟩
              rcases List.mem_cons.mp hmem with rfl | hp2
              · exact absurd hSij h3
              · exact ⟨hp2, h2, h3, h4, h5⟩
      · -- fresh target
        have hmij : getCell gmid i j = getCell g0 i j := hout _ hSij
        by_cases hLd : getCell g0 i j = [d]
        · -- the fresh target conflicts: the pass fails here
          have hz : (removeAll [d] (getCell gmid i j)).length = 0 := by
            rw [removeAll_singleton, hmij, hLd]
            simp
          rw [if_pos hz]
          constructor
          · intro _
            rfl
          · intro hok
            exact absurd hLd (hok (i, j) (List.mem_cons_self _ _) hskip hSij)
        · have hnz : ¬(removeAll [d] (getCell gmid i j)).length = 0 := by
            rw [removeAll_singleton, hmij]
            intro hlen
            exact filter_ne_ne_nil _ d hLnd hLne hLd (List.length_eq_zero.mp hlen)
          rw [if_neg hnz]
          have hfl := filter_ne_length d (getCell g0 i j) hLnd
          have hcrit : ((removeAll [d] (getCell gmid i j)).length = 1 ∧
              1 < (getCell gmid i j).length) ↔
              ((getCell g0 i j).length = 2 ∧ d ∈ getCell g0 i j) := by
            rw [removeAll_singleton, hmij]
            by_cases hdm : d ∈ getCell g0 i j
            · rw [if_pos hdm] at hfl
              constructor
              · rintro ⟨h1, h2⟩
                exact ⟨by omega, hdm⟩
              · rintro ⟨h1, -⟩
                exact ⟨by omega, by omega⟩
            · rw [if_neg hdm] at hfl
              constructor
              · rintro ⟨h1, h2⟩
                omega
              · rintro ⟨-, h2⟩
                exact absurd h2 hdm
          -- the new grid and the extended processed set
          have hgm : ∀ p : Coord, p ≠ (i, j) →
              getCell (setCell gmid i j (removeAll [d] (getCell gmid i j))) p.1 p.2 =
                getCell gmid p.1 p.2 :=
            fun p hp => getCell_setCell_ne2 gmid i j _ p hp
          have hgij : getCell (setCell gmid i j (removeAll [d] (getCell gmid i j))) i j =
              (getCell g0 i j).filter (· ≠ d) := by
            rw [getCell_setCell_self gmid i j _ (by rw [hmij]; exact hLne)]
            rw [removeAll_singleton, hmij]
          have hijrc : (i, j) ≠ ((r : Nat), (c : Nat)) := by
            intro hx
            apply hskip
            rw [Prod.ext_iff] at hx
            exact ⟨hx.1, hx.2⟩
          obtain ⟨ihf, ihs⟩ := ih (fun p => S p ∨ p = (i, j))
            (setCell gmid i j (removeAll [d] (getCell gmid i j)))
            (if (removeAll [d] (getCell gmid i j)).length = 1 ∧
                1 < (getCell gmid i j).length then acc ++ [(i, j)] else acc)
            (by
              rintro (hS | hx)
              · exact hnS hS
              · exact hijrc hx.symm)
            (by
              rintro p (hS | rfl)
              · exact hSnc p hS
              · exact hLd)
            (by
              rintro p (hS | rfl)
              · have hpij : p ≠ (i, j) := by
                  intro hx
                  rw [hx] at hS
                  exact hSij hS
                rw [hgm p hpij]
                exact hcov p hS
              · exact hgij)
            (by
              intro p hp
              rw [not_or] at hp
              rw [hgm p hp.2]
              exact hout p hp.1)
            (fun p hp => hbd p (List.mem_cons_of_mem _ hp))
          constructor
          · rintro ⟨p, hp, hnp, hnSp, hpd⟩
            rcases List.mem_cons.mp hp with rfl | hp2
            · exact absurd hpd hLd
            · apply ihf
              refine ⟨p, hp2, hnp, ?_, hpd⟩
              rintro (hS | rfl)
              · exact hnSp hS
              · exact hLd hpd
          · intro hok
            obtain ⟨news, gout, heq, hin, hout2, hnews, hnd⟩ := ihs (by
              rintro p hp hnp hnSp
              exact hok p (List.mem_cons_of_mem _ hp) hnp (fun hS => hnSp (Or.inl hS)))
            by_cases hnew : (removeAll [d] (getCell gmid i j)).length = 1 ∧
                1 < (getCell gmid i j).length
            · rw [if_pos hnew] at heq
              refine ⟨(i, j) :: news, gout, by rw [if_pos hnew, heq]; simp, ?_, ?_, ?_, ?_⟩
              · intro p hp
                apply hin
                rcases hp with hS | ⟨hmem, hnp⟩
                · exact Or.inl (Or.inl hS)
                · rcases List.mem_cons.mp hmem with rfl | hp2
                  · exact Or.inl (Or.inr rfl)
                  · exact Or.inr ⟨hp2, hnp⟩
              · intro p hp
                apply hout2
                rintro (⟨hS | rfl⟩ | ⟨hmem, hnp⟩)
                · exact hp (Or.inl hS)
                · exact hp (Or.inr ⟨List.mem_cons_self _ _, hskip⟩)
                · exact hp (Or.inr ⟨List.mem_cons_of_mem _ hmem, hnp⟩)
              · intro p
                by_cases hpij : p = (i, j)
                · subst hpij
                  constructor
                  · intro _
                    exact ⟨List.mem_cons_self _ _, hskip, hSij,
                      (hcrit.mp hnew).1, (hcrit.mp hnew).2⟩
                  · intro _
                    exact List.mem_cons_self _ _
                · simp only [List.mem_cons]
                  constructor
                  · rintro (hx | hmem)
                    · exact absurd hx hpij
                    · obtain ⟨hm2, h2, h3, h4, h5⟩ := (hnews p).mp hmem
                      refine ⟨Or.inr hm2, h2, ?_, h4, h5⟩
                      intro hS
                      exact h3 (Or.inl hS)
                  · rintro ⟨hmem, h2, h3, h4, h5⟩
                    right
                    apply (hnews p).mpr
                    rcases hmem with hx | hm2
                    · exact absurd hx hpij
                    · refine ⟨hm2, h2, ?_, h4, h5⟩
                      rintro (hS | hx)
                      · exact h3 hS
                      · exact hpij hx
              · refine List.Nodup.cons ?_ hnd
                intro hmem
                obtain ⟨-, -, h3, -, -⟩ := (hnews _).mp hmem
                exact h3 (Or.inr rfl)
            · rw [if_neg hnew] at heq
              refine ⟨news, gout, by rw [if_neg hnew]; exact heq, ?_, ?_, ?_, hnd⟩
              · intro p hp
                apply hin
                rcases hp with hS | ⟨hmem, hnp⟩
                · exact Or.inl (Or.inl hS)
                · rcases List.mem_cons.mp hmem with rfl | hp2
                  · exact Or.inl (Or.inr rfl)
                  · exact Or.inr ⟨hp2, hnp⟩
              · intro p hp
                apply hout2
                rintro (⟨hS | rfl⟩ | ⟨hmem, hnp⟩)
                · exact hp (Or.inl hS)
                · exact hp (Or.inr ⟨List.mem_cons_self _ _, hskip⟩)
                · exact hp (Or.inr ⟨List.mem_cons_of_mem _ hmem, hnp⟩)
              · intro p
                by_cases hpij : p = (i, j)
                · subst hpij
                  constructor
                  · intro hmem
                    obtain ⟨-, -, h3, -, -⟩ := (hnews _).mp hmem
                    exact absurd (Or.inr rfl) h3
                  · rintro ⟨-, -, -, h4, h5⟩
                    exact absurd (hcrit.mpr ⟨h4, h5⟩) hnew
                · rw [hnews p]
                  constructor
                  · rintro ⟨hm2, h2, h3, h4, h5⟩
                    refine ⟨List.mem_cons_of_mem _ hm2, h2, ?_, h4, h5⟩
                    intro hS
                    exact h3 (Or.inl hS)
                  · rintro ⟨hmem, h2, h3, h4, h5⟩
                    rcases List.mem_cons.mp hmem with hx | hm2
                    · exact absurd hx hpij
                    · refine ⟨hm2, h2, ?_, h4, h5⟩
                      rintro (hS | hx)
                      · exact h3 hS
                      · exact hpij hx

theorem mem_boxCoords (r c : Nat) (hr : r < 9) (hc : c < 9) (p : Coord) :
    p ∈ boxCoords r c ↔ (p.1 / 3 = r / 3 ∧ p.2 / 3 = c / 3) := by
  simp only [boxCoords, List.mem_flatMap, List.mem_map, List.mem_range]
  constructor
  · rintro ⟨a, ha, b, hb, rfl⟩
    constructor
    · simp only []
      omega
    · simp only []
      omega
  · rintro ⟨h1, h2⟩
    refine ⟨p.1 - r / 3 * 3, by omega, p.2 - c / 3 * 3, by omega, ?_⟩
    rw [Prod.ext_iff]
    constructor
    · simp only []
      omega
    · simp only []
      omega

theorem mem_colTargets (c : Nat) (p : Coord) :
    p ∈ (List.range width).map (fun j => (j, c)) ↔ p.1 < 9 ∧ p.2 = c := by
  simp only [List.mem_map, List.mem_range, width]
  constructor
  · rintro ⟨a, ha, rfl⟩
    exact ⟨ha, rfl⟩
  · rintro ⟨h1, h2⟩
    refine ⟨p.1, h1, ?_⟩
    rw [Prod.ext_iff]
    exact ⟨rfl, h2.symm⟩

theorem mem_rowTargets (r : Nat) (p : Coord) :
    p ∈ (List.range width).map (fun j => (r, j)) ↔ p.1 = r ∧ p.2 < 9 := by
  simp only [List.mem_map, List.mem_range, width]
  constructor
  · rintro ⟨a, ha, rfl⟩
    exact ⟨rfl, ha⟩
  · rintro ⟨h1, h2⟩
    refine ⟨p.2, h2, ?_⟩
    rw [Prod.ext_iff]
    exact ⟨h1.symm, rfl⟩

theorem peer_iff_targets (r c : Nat) (hr : r < 9) (hc : c < 9) (p : Coord) :
    Peer r c p ↔ (¬(p.1 = r ∧ p.2 = c) ∧
      (p ∈ boxCoords r c ∨ p ∈ (List.range width).map (fun j => (j, c)) ∨
        p ∈ (List.range width).map (fun j => (r, j)))) := by
  rw [mem_boxCoords r c hr hc, mem_colTargets, mem_rowTargets]
  unfold Peer
  constructor
  · rintro ⟨h1, h2, h3, h4 | h4 | h4⟩
    · exact ⟨h1, Or.inr (Or.inr ⟨h4, h3⟩)⟩
    · exact ⟨h1, Or.inr (Or.inl ⟨h2, h4⟩)⟩
    · exact ⟨h1, Or.inl h4⟩
  · rintro ⟨h1, h2 | h2 | h2⟩
    · obtain ⟨hb1, hb2⟩ := h2
      exact ⟨h1, by omega, by omega, Or.inr (Or.inr ⟨hb1, hb2⟩)⟩
    · exact ⟨h1, h2.1, by omega, Or.inr (Or.inl h2.2)⟩
    · exact ⟨h1, by omega, h2.2, Or.inl h2.1⟩

/-- Characterization of one pop of the worklist loop from a grid of
non-empty digit domains whose popped cell holds the singleton `[d]`:
the three passes all succeed exactly when no peer of `(r, c)` holds
`[d]`; on success every peer domain has `d` filtered out, everything
else is unchanged, and the collected newly-singleton coordinates are
exactly the peers whose domain had length two and contained `d`. -/
theorem pop_spec (g0 : GridT) (r c : Nat) (d : Char)
    (hdg : DigitsGrid g0) (hne : NonEmptyGrid g0) (hrc : getCell g0 r c = [d])
    (hr : r < 9) (hc : c < 9) :
    (¬PeerConflict g0 r c d →
      ∃ ul g1 cl g2 rl g3,
        remove_domain_unit g0 r c = (some ul, g1) ∧
        remove_domain_column g1 r c = (some cl, g2) ∧
        remove_domain_row g2 r c = (some rl, g3) ∧
        (∀ p, Peer r c p → getCell g3 p.1 p.2 = (getCell g0 p.1 p.2).filter (· ≠ d)) ∧
        (∀ p, ¬Peer r c p → getCell g3 p.1 p.2 = getCell g0 p.1 p.2) ∧
        (∀ p, p ∈ ul ++ cl ++ rl ↔ (Peer r c p ∧
          (getCell g0 p.1 p.2).length = 2 ∧ d ∈ getCell g0 p.1 p.2)) ∧
        (ul ++ cl ++ rl).Nodup) ∧
    (PeerConflict g0 r c d →
      ∀ ul g1 cl g2 rl g3,
        remove_domain_unit g0 r c = (some ul, g1) →
        remove_domain_column g1 r c = (some cl, g2) →
        ¬remove_domain_row g2 r c = (some rl, g3)) := by
  have hbox := passAux_run g0 r c d hdg hne hrc (boxCoords r c) (fun _ => False) g0 []
    (fun h => h) (fun p h => h.elim) (fun p h => h.elim) (fun p _ => rfl)
    (fun p hp => by
      rw [mem_boxCoords r c hr hc] at hp
      obtain ⟨h1, h2⟩ := hp
      omega)
  constructor
  · -- success case
    intro hnc
    have hok1 : ∀ p ∈ boxCoords r c, ¬(p.1 = r ∧ p.2 = c) → ¬False →
        getCell g0 p.1 p.2 ≠ [d] := by
      intro p hp hnp _ hpd
      apply hnc
      refine ⟨p, ?_, hpd⟩
      rw [peer_iff_targets r c hr hc]
      exact ⟨hnp, Or.inl hp⟩
    obtain ⟨n1, go1, he1, hin1, hout1, hnews1, hnd1⟩ := hbox.2 hok1
    rw [List.nil_append] at he1
    have hcol := passAux_run g0 r c d hdg hne hrc ((List.range width).map fun j => (j, c))
      (fun p => False ∨ (p ∈ boxCoords r c ∧ ¬(p.1 = r ∧ p.2 = c))) go1 []
      (by
        rintro (h | ⟨-, h⟩)
        · exact h
        · exact h ⟨rfl, rfl⟩)
      (by
        rintro p (h | ⟨hp, hnp⟩)
        · exact h.elim
        · intro hpd
          exact hnc ⟨p, (peer_iff_targets r c hr hc p).mpr ⟨hnp, Or.inl hp⟩, hpd⟩)
      hin1 hout1
      (fun p hp => by
        rw [mem_colTargets c p] at hp
        omega)
    have hok2 : ∀ p ∈ (List.range width).map (fun j => (j, c)),
        ¬(p.1 = r ∧ p.2 = c) →
        ¬(False ∨ (p ∈ boxCoords r c ∧ ¬(p.1 = r ∧ p.2 = c))) →
        getCell g0 p.1 p.2 ≠ [d] := by
      intro p hp hnp _ hpd
      exact hnc ⟨p, (peer_iff_targets r c hr hc p).mpr ⟨hnp, Or.inr (Or.inl hp)⟩, hpd⟩
    obtain ⟨n2, go2, he2, hin2, hout2, hnews2, hnd2⟩ := hcol.2 hok2
    rw [List.nil_append] at he2
    have hrow := passAux_run g0 r c d hdg hne hrc ((List.range width).map fun j => (r, j))
      (fun p => (False ∨ (p ∈ boxCoords r c ∧ ¬(p.1 = r ∧ p.2 = c))) ∨
        (p ∈ (List.range width).map (fun j => (j, c)) ∧ ¬(p.1 = r ∧ p.2 = c))) go2 []
      (by
        rintro ((h | ⟨-, h⟩) | ⟨-, h⟩)
        · exact h
        · exact h ⟨rfl, rfl⟩
        · exact h ⟨rfl, rfl⟩)
      (by
        rintro p ((h | ⟨hp, hnp⟩) | ⟨hp, hnp⟩)
        · exact h.elim
        · intro hpd
          exact hnc ⟨p, (peer_iff_targets r c hr hc p).mpr ⟨hnp, Or.inl hp⟩, hpd⟩
        · intro hpd
          exact hnc ⟨p, (peer_iff_targets r c hr hc p).mpr ⟨hnp, Or.inr (Or.inl hp)⟩, hpd⟩)
      hin2 hout2
      (fun p hp => by
        rw [mem_rowTargets r p] at hp
        omega)
    have hok3 : ∀ p ∈ (List.range width).map (fun j => (r, j)),
        ¬(p.1 = r ∧ p.2 = c) →
        ¬((False ∨ (p ∈ boxCoords r c ∧ ¬(p.1 = r ∧ p.2 = c))) ∨
          (p ∈ (List.range width).map (fun j => (j, c)) ∧ ¬(p.1 = r ∧ p.2 = c))) →
        getCell g0 p.1 p.2 ≠ [d] := by
      intro p hp hnp _ hpd
      exact hnc ⟨p, (peer_iff_targets r c hr hc p).mpr ⟨hnp, Or.inr (Or.inr hp)⟩, hpd⟩
    obtain ⟨n3, go3, he3, hin3, hout3, hnews3, hnd3⟩ := hrow.2 hok3
    rw [List.nil_append] at he3
    refine ⟨n1, go1, n2, go2, n3, go3, he1, he2, he3, ?_, ?_, ?_, ?_⟩
    · intro p hpeer
      rw [peer_iff_targets r c hr hc] at hpeer
      obtain ⟨hnp, hm | hm | hm⟩ := hpeer
      · exact hin3 p (Or.inl (Or.inl (Or.inr ⟨hm, hnp⟩)))
      · exact hin3 p (Or.inl (Or.inr ⟨hm, hnp⟩))
      · exact hin3 p (Or.inr ⟨hm, hnp⟩)
    · intro p hpeer
      apply hout3
      rintro (((h | ⟨hm, hnp⟩) | ⟨hm, hnp⟩) | ⟨hm, hnp⟩)
      · exact h
      · exact hpeer ((peer_iff_targets r c hr hc p).mpr ⟨hnp, Or.inl hm⟩)
      · exact hpeer ((peer_iff_targets r c hr hc p).mpr ⟨hnp, Or.inr (Or.inl hm)⟩)
      · exact hpeer ((peer_iff_targets r c hr hc p).mpr ⟨hnp, Or.inr (Or.inr hm)⟩)
    · intro p
      simp only [List.mem_append]
      rw [hnews1 p, hnews2 p, hnews3 p, peer_iff_targets r c hr hc p]
      constructor
      · rintro ((⟨hm, hnp, -, h4, h5⟩ | ⟨hm, hnp, -, h4, h5⟩) | ⟨hm, hnp, -, h4, h5⟩)
        · exact ⟨⟨hnp, Or.inl hm⟩, h4, h5⟩
        · exact ⟨⟨hnp, Or.inr (Or.inl hm)⟩, h4, h5⟩
        · exact ⟨⟨hnp, Or.inr (Or.inr hm)⟩, h4, h5⟩
      · rintro ⟨⟨hnp, hmem⟩, h4, h5⟩
        by_cases hb : p ∈ boxCoords r c
        · exact Or.inl (Or.inl ⟨hb, hnp, fun h => h, h4, h5⟩)
        · by_cases hc2 : p ∈ (List.range width).map (fun j => (j, c))
          · refine Or.inl (Or.inr ⟨hc2, hnp, ?_, h4, h5⟩)
            rintro (h | ⟨hm2, -⟩)
            · exact h
            · exact hb hm2
          · rcases hmem with hm | hm | hm
            · exact absurd hm hb
            · exact absurd hm hc2
            · refine Or.inr ⟨hm, hnp, ?_, h4, h5⟩
              rintro ((h | ⟨hm2, -⟩) | ⟨hm2, -⟩)
              · exact h
              · exact hb hm2
              · exact hc2 hm2
    · rw [List.nodup_append, List.nodup_append]
      refine ⟨⟨hnd1, hnd2, ?_⟩, hnd3, ?_⟩
      · intro a ha hb
        obtain ⟨hm1, hnp1, -, -, -⟩ := (hnews1 a).mp ha
        obtain ⟨-, -, hns2, -, -⟩ := (hnews2 a).mp hb
        exact hns2 (Or.inr ⟨hm1, hnp1⟩)
      · intro a ha hb
        obtain ⟨-, -, hns3, -, -⟩ := (hnews3 a).mp hb
        rcases List.mem_append.mp ha with h1 | h2
        · obtain ⟨hm1, hnp1, -, -, -⟩ := (hnews1 a).mp h1
          exact hns3 (Or.inl (Or.inr ⟨hm1, hnp1⟩))
        · obtain ⟨hm2, hnp2, -, -, -⟩ := (hnews2 a).mp h2
          exact hns3 (Or.inr ⟨hm2, hnp2⟩)
  · -- failure case: with a conflicting peer the three passes cannot all succeed
    intro hcf ul g1 cl g2 rl g3 hu hcl
    have hu2 : passAux g0 r c (boxCoords r c) [] = (some ul, g1) := hu
    have hnb : ¬∃ p ∈ boxCoords r c, ¬(p.1 = r ∧ p.2 = c) ∧ ¬False ∧
        getCell g0 p.1 p.2 = [d] := by
      intro hex
      have hnone := hbox.1 hex
      rw [hu2] at hnone
      simp at hnone
    obtain ⟨n1, go1, he1, hin1, hout1, hnews1, hnd1⟩ := hbox.2 (by
      intro p hp hnp hns hpd
      exact hnb ⟨p, hp, hnp, hns, hpd⟩)
    rw [List.nil_append] at he1
    rw [hu2] at he1
    have hg1 : g1 = go1 := congrArg Prod.snd he1
    subst hg1
    have hcol := passAux_run g0 r c d hdg hne hrc ((List.range width).map fun j => (j, c))
      (fun p => False ∨ (p ∈ boxCoords r c ∧ ¬(p.1 = r ∧ p.2 = c))) g1 []
      (by
        rintro (h | ⟨-, h⟩)
        · exact h
        · exact h ⟨rfl, rfl⟩)
      (by
        rintro p (h | ⟨hp, hnp⟩)
        · exact h.elim
        · intro hpd
          exact hnb ⟨p, hp, hnp, fun h => h, hpd⟩)
      hin1 hout1
      (fun p hp => by
        rw [mem_colTargets c p] at hp
        omega)
    have hcl2 : passAux g1 r c ((List.range width).map fun j => (j, c)) [] =
        (some cl, g2) := hcl
    have hncl : ¬∃ p ∈ (List.range width).map (fun j => (j, c)),
        ¬(p.1 = r ∧ p.2 = c) ∧
        ¬(False ∨ (p ∈ boxCoords r c ∧ ¬(p.1 = r ∧ p.2 = c))) ∧
        getCell g0 p.1 p.2 = [d] := by
      intro hex
      have hnone := hcol.1 hex
      rw [hcl2] at hnone
      simp at hnone
    obtain ⟨n2, go2, he2, hin2, hout2, hnews2, hnd2⟩ := hcol.2 (by
      intro p hp hnp hns hpd
      exact hncl ⟨p, hp, hnp, hns, hpd⟩)
    rw [List.nil_append] at he2
    rw [hcl2] at he2
    have hg2 : g2 = go2 := congrArg Prod.snd he2
    subst hg2
    have hrow := passAux_run g0 r c d hdg hne hrc ((List.range width).map fun j => (r, j))
      (fun p => (False ∨ (p ∈ boxCoords r c ∧ ¬(p.1 = r ∧ p.2 = c))) ∨
        (p ∈ (List.range width).map (fun j => (j, c)) ∧ ¬(p.1 = r ∧ p.2 = c))) g2 []
      (by
        rintro ((h | ⟨-, h⟩) | ⟨-, h⟩)
        · exact h
        · exact h ⟨rfl, rfl⟩
        · exact h ⟨rfl, rfl⟩)
      (by
        rintro p ((h | ⟨hp, hnp⟩) | ⟨hp, hnp⟩)
        · exact h.elim
        · intro hpd
          exact hnb ⟨p, hp, hnp, fun h => h, hpd⟩
        · intro hpd
          by_cases hb : p ∈ boxCoords r c
          · exact hnb ⟨p, hb, hnp, fun h => h, hpd⟩
          · refine hncl ⟨p, hp, hnp, ?_, hpd⟩
            rintro (h | ⟨hm2, -⟩)
            · exact h
            · exact hb hm2)
      hin2 hout2
      (fun p hp => by
        rw [mem_rowTargets r p] at hp
        omega)
    intro hrw
    obtain ⟨p, hpeer, hpd⟩ := hcf
    rw [peer_iff_targets r c hr hc] at hpeer
    obtain ⟨hnp, hmem⟩ := hpeer
    by_cases hb : p ∈ boxCoords r c
    · exact hnb ⟨p, hb, hnp, fun h => h, hpd⟩
    · by_cases hc2 : p ∈ (List.range width).map (fun j => (j, c))
      · refine hncl ⟨p, hc2, hnp, ?_, hpd⟩
        rintro (h | ⟨hm2, -⟩)
        · exact h
        · exact hb hm2
      · rcases hmem with hm | hm | hm
        · exact absurd hm hb
        · exact absurd hm hc2
        · have hnone := hrow.1 ⟨p, hm, hnp, (by
            rintro ((h | ⟨hm2, -⟩) | ⟨hm2, -⟩)
            · exact h
            · exact hb hm2
            · exact hc2 hm2), hpd⟩
          have hrw2 : passAux g2 r c ((List.range width).map fun j => (r, j)) [] =
              (some rl, g3) := hrw
          rw [hrw2] at hnone
          simp at hnone

theorem consistencyPickF_irrel :
    ∀ (fuel fuel' : Nat) (pick : GridT → List Coord → Nat) (g : GridT) (Q : List Coord),
    2 * gsize g + Q.length < fuel → 2 * gsize g + Q.length < fuel' →
    consistencyPickF fuel pick g Q = consistencyPickF fuel' pick g Q := by
  intro fuel
  induction fuel with
  | zero => intro fuel' pick g Q h; omega
  | succ n ih =>
    intro fuel' pick g Q h h'
    match fuel' with
    | 0 => omega
    | m + 1 =>
      match Q with
      | [] => simp [consistencyPickF]
      | q :: Q2 =>
        simp only [consistencyPickF]
        have hkk : pick g (q :: Q2) % (q :: Q2).length < (q :: Q2).length :=
          Nat.mod_lt _ (by simp)
        have hrl : ((q :: Q2).eraseIdx (pick g (q :: Q2) % (q :: Q2).length)).length =
            Q2.length := by
          rw [List.length_eraseIdx_of_lt hkk]
          simp
        generalize (q :: Q2).getD (pick g (q :: Q2) % (q :: Q2).length) (0, 0) = rc
        generalize hrest : (q :: Q2).eraseIdx (pick g (q :: Q2) % (q :: Q2).length) = rest
        rw [hrest] at hrl
        match h1 : remove_domain_unit g rc.1 rc.2 with
        | (none, g1) => rfl
        | (some ul, g1) =>
          simp only []
          match h2 : remove_domain_column g1 rc.1 rc.2 with
          | (none, g2) => rfl
          | (some cl, g2) =>
            simp only []
            match h3 : remove_domain_row g2 rc.1 rc.2 with
            | (none, g3) => rfl
            | (some rl, g3) =>
              simp only []
              have hu := remove_domain_unit_gsize_some g rc.1 rc.2 ul g1 h1
              have hcs := remove_domain_column_gsize_some g1 rc.1 rc.2 cl g2 h2
              have hrs := remove_domain_row_gsize_some g2 rc.1 rc.2 rl g3 h3
              have ha := addAll_length (ul ++ cl ++ rl) rest
              simp only [List.length_append] at ha
              simp only [List.length_cons] at h h'
              exact ih m pick g3 (addAll rest (ul ++ cl ++ rl)) (by omega) (by omega)

/-- Unfolding equation for `consistencyPick` on a non-empty worklist. -/
theorem consistencyPick_pop (pick : GridT → List Coord → Nat) (g : GridT)
    (Q : List Coord) (hQne : Q ≠ []) (k : Nat) (hk : k = pick g Q % Q.length) :
    consistencyPick pick g Q =
      match remove_domain_unit g (Q.getD k (0, 0)).1 (Q.getD k (0, 0)).2 with
      | (some ul, g1) =>
        match remove_domain_column g1 (Q.getD k (0, 0)).1 (Q.getD k (0, 0)).2 with
        | (some cl, g2) =>
          match remove_domain_row g2 (Q.getD k (0, 0)).1 (Q.getD k (0, 0)).2 with
          | (some rl, g3) => consistencyPick pick g3 (addAll (Q.eraseIdx k) (ul ++ cl ++ rl))
          | (none, g3) => (g3, false)
        | (none, g2) =>
          ((remove_domain_row g2 (Q.getD k (0, 0)).1 (Q.getD k (0, 0)).2).2, false)
      | (none, g1) =>
        ((remove_domain_row (remove_domain_column g1 (Q.getD k (0, 0)).1 (Q.getD k (0, 0)).2).2
          (Q.getD k (0, 0)).1 (Q.getD k (0, 0)).2).2, false) := by
  subst hk
  match Q, hQne with
  | q :: Q2, _ =>
    show consistencyPickF (2 * gsize g + (q :: Q2).length + 1) pick g (q :: Q2) = _
    simp only [consistencyPickF]
    have hkk : pick g (q :: Q2) % (q :: Q2).length < (q :: Q2).length :=
      Nat.mod_lt _ (by simp)
    have hrl : ((q :: Q2).eraseIdx (pick g (q :: Q2) % (q :: Q2).length)).length =
        Q2.length := by
      rw [List.length_eraseIdx_of_lt hkk]
      simp
    generalize (q :: Q2).getD (pick g (q :: Q2) % (q :: Q2).length) (0, 0) = rc
    generalize hrest : (q :: Q2).eraseIdx (pick g (q :: Q2) % (q :: Q2).length) = rest
    rw [hrest] at hrl
    match h1 : remove_domain_unit g rc.1 rc.2 with
    | (none, g1) => rfl
    | (some ul, g1) =>
      simp only []
      match h2 : remove_domain_column g1 rc.1 rc.2 with
      | (none, g2) => rfl
      | (some cl, g2) =>
        simp only []
        match h3 : remove_domain_row g2 rc.1 rc.2 with
        | (none, g3) => rfl
        | (some rl, g3) =>
          simp only []
          have hu := remove_domain_unit_gsize_some g rc.1 rc.2 ul g1 h1
          have hcs := remove_domain_column_gsize_some g1 rc.1 rc.2 cl g2 h2
          have hrs := remove_domain_row_gsize_some g2 rc.1 rc.2 rl g3 h3
          have ha := addAll_length (ul ++ cl ++ rl) rest
          simp only [List.length_append] at ha
          exact consistencyPickF_irrel (2 * gsize g + (q :: Q2).length)
            (2 * gsize g3 + (addAll rest (ul ++ cl ++ rl)).length + 1) pick g3
            (addAll rest (ul ++ cl ++ rl))
            (by simp only [List.length_cons]; omega) (by omega)

theorem consistencyPickF_front : ∀ (fuel : Nat) (g : GridT) (Q : List Coord),
    consistencyPickF fuel pickFront g Q = consistencyF fuel g Q := by
  intro fuel
  induction fuel with
  | zero => intro g Q; rfl
  | succ n ih =>
    intro g Q
    match Q with
    | [] => rfl
    | (r, c) :: rest =>
      simp only [consistencyPickF, consistencyF, pickFront, Nat.zero_mod,
        List.getD_cons_zero, List.eraseIdx_cons_zero]
      match h1 : remove_domain_unit g r c with
      | (none, g1) => rfl
      | (some ul, g1) =>
        simp only []
        match h2 : remove_domain_column g1 r c with
        | (none, g2) => rfl
        | (some cl, g2) =>
          simp only []
          match h3 : remove_domain_row g2 r c with
          | (none, g3) => rfl
          | (some rl, g3) =>
            simp only []
            exact ih g3 (addAll rest (ul ++ cl ++ rl))

/-- The front-popping strategy recovers the implementation's
`consistency`. -/
theorem consistencyPick_front (g : GridT) (Q : List Coord) :
    consistencyPick pickFront g Q = consistency g Q :=
  consistencyPickF_front (2 * gsize g + Q.length + 1) g Q

theorem singleton_survives (g0 g3 : GridT) (r c : Nat) (d : Char)
    (hnc : ¬PeerConflict g0 r c d)
    (hin : ∀ p, Peer r c p → getCell g3 p.1 p.2 = (getCell g0 p.1 p.2).filter (· ≠ d))
    (hout : ∀ p, ¬Peer r c p → getCell g3 p.1 p.2 = getCell g0 p.1 p.2)
    (p : Coord) (e : Char) (hpe : getCell g0 p.1 p.2 = [e]) :
    getCell g3 p.1 p.2 = [e] := by
  by_cases hp : Peer r c p
  · have hde : e ≠ d := by
      intro he
      exact hnc ⟨p, hp, by rw [hpe, he]⟩
    rw [hin p hp, hpe]
    simp [List.filter_cons, hde]
  · rw [hout p hp, hpe]

/-- One step of `consistencyPick` when the popped cell's singleton has a
conflicting peer: the verdict is failure. -/
theorem consistencyPick_step_fail (pick : GridT → List Coord → Nat) (g : GridT)
    (Q : List Coord) (hQne : Q ≠ []) (hdg : DigitsGrid g) (hneg : NonEmptyGrid g)
    (k : Nat) (hk : k = pick g Q % Q.length) (d : Char)
    (hd : getCell g (Q.getD k (0, 0)).1 (Q.getD k (0, 0)).2 = [d])
    (hr : (Q.getD k (0, 0)).1 < 9) (hc : (Q.getD k (0, 0)).2 < 9)
    (hcf : PeerConflict g (Q.getD k (0, 0)).1 (Q.getD k (0, 0)).2 d) :
    (consistencyPick pick g Q).2 = false := by
  rw [consistencyPick_pop pick g Q hQne k hk]
  obtain ⟨-, hfail⟩ :=
    pop_spec g (Q.getD k (0, 0)).1 (Q.getD k (0, 0)).2 d hdg hneg hd hr hc
  match h1 : remove_domain_unit g (Q.getD k (0, 0)).1 (Q.getD k (0, 0)).2 with
  | (none, g1) => rfl
  | (some ul, g1) =>
    simp only []
    match h2 : remove_domain_column g1 (Q.getD k (0, 0)).1 (Q.getD k (0, 0)).2 with
    | (none, g2) => rfl
    | (some cl, g2) =>
      simp only []
      match h3 : remove_domain_row g2 (Q.getD k (0, 0)).1 (Q.getD k (0, 0)).2 with
      | (none, g3) => rfl
      | (some rl, g3) =>
        exact absurd h3 (hfail hcf ul g1 cl g2 rl g3 h1 h2)

/-- One step of `consistencyPick` when the popped cell's singleton has no
conflicting peer: the pop succeeds and the loop continues on the filtered
grid with the newly-singleton peers enqueued. -/
theorem consistencyPick_step_ok (pick : GridT → List Coord → Nat) (g : GridT)
    (Q : List Coord) (hQne : Q ≠ []) (hdg : DigitsGrid g) (hneg : NonEmptyGrid g)
    (k : Nat) (hk : k = pick g Q % Q.length) (d : Char)
    (hd : getCell g (Q.getD k (0, 0)).1 (Q.getD k (0, 0)).2 = [d])
    (hr : (Q.getD k (0, 0)).1 < 9) (hc : (Q.getD k (0, 0)).2 < 9)
    (hnc : ¬PeerConflict g (Q.getD k (0, 0)).1 (Q.getD k (0, 0)).2 d) :
    ∃ news g3,
      consistencyPick pick g Q = consistencyPick pick g3 (addAll (Q.eraseIdx k) news) ∧
      (∀ p, Peer (Q.getD k (0, 0)).1 (Q.getD k (0, 0)).2 p →
        getCell g3 p.1 p.2 = (getCell g p.1 p.2).filter (· ≠ d)) ∧
      (∀ p, ¬Peer (Q.getD k (0, 0)).1 (Q.getD k (0, 0)).2 p →
        getCell g3 p.1 p.2 = getCell g p.1 p.2) ∧
      (∀ p, p ∈ news ↔ (Peer (Q.getD k (0, 0)).1 (Q.getD k (0, 0)).2 p ∧
        (getCell g p.1 p.2).length = 2 ∧ d ∈ getCell g p.1 p.2)) ∧
      news.Nodup ∧ ShapeEq g3 g ∧ DigitsGrid g3 ∧ NonEmptyGrid g3 ∧
      2 * gsize g3 + (addAll (Q.eraseIdx k) news).length < 2 * gsize g + Q.length := by
  obtain ⟨hsucc, -⟩ :=
    pop_spec g (Q.getD k (0, 0)).1 (Q.getD k (0, 0)).2 d hdg hneg hd hr hc
  obtain ⟨ul, g1, cl, g2, rl, g3, h1, h2, h3, hin, hout, hnews, hnd⟩ := hsucc hnc
  have hs1 : ShapeEq g1 g := by
    have hx := shapeEq_passAux (Q.getD k (0, 0)).1 (Q.getD k (0, 0)).2
      (boxCoords (Q.getD k (0, 0)).1 (Q.getD k (0, 0)).2) g []
    rw [show passAux g (Q.getD k (0, 0)).1 (Q.getD k (0, 0)).2
      (boxCoords (Q.getD k (0, 0)).1 (Q.getD k (0, 0)).2) [] = (some ul, g1) from h1] at hx
    exact hx
  have hs2 : ShapeEq g2 g1 := by
    have hx := shapeEq_passAux (Q.getD k (0, 0)).1 (Q.getD k (0, 0)).2
      ((List.range width).map fun j => (j, (Q.getD k (0, 0)).2)) g1 []
    rw [show passAux g1 (Q.getD k (0, 0)).1 (Q.getD k (0, 0)).2
      ((List.range width).map fun j => (j, (Q.getD k (0, 0)).2)) [] =
      (some cl, g2) from h2] at hx
    exact hx
  have hs3 : ShapeEq g3 g2 := by
    have hx := shapeEq_passAux (Q.getD k (0, 0)).1 (Q.getD k (0, 0)).2
      ((List.range width).map fun j => ((Q.getD k (0, 0)).1, j)) g2 []
    rw [show passAux g2 (Q.getD k (0, 0)).1 (Q.getD k (0, 0)).2
      ((List.range width).map fun j => ((Q.getD k (0, 0)).1, j)) [] =
      (some rl, g3) from h3] at hx
    exact hx
  have hi1 : GridInv g1 g := by
    have hx := remove_domain_unit_inv g (Q.getD k (0, 0)).1 (Q.getD k (0, 0)).2
    rw [h1] at hx
    exact hx
  have hi2 : GridInv g2 g1 := by
    have hx := remove_domain_column_inv g1 (Q.getD k (0, 0)).1 (Q.getD k (0, 0)).2
    rw [h2] at hx
    exact hx
  have hi3 : GridInv g3 g2 := by
    have hx := remove_domain_row_inv g2 (Q.getD k (0, 0)).1 (Q.getD k (0, 0)).2
    rw [h3] at hx
    exact hx
  have hinv : GridInv g3 g := gridInv_trans hi3 (gridInv_trans hi2 hi1)
  have hu := remove_domain_unit_gsize_some g (Q.getD k (0, 0)).1 (Q.getD k (0, 0)).2 ul g1 h1
  have hcs := remove_domain_column_gsize_some g1 (Q.getD k (0, 0)).1 (Q.getD k (0, 0)).2 cl g2 h2
  have hrs := remove_domain_row_gsize_some g2 (Q.getD k (0, 0)).1 (Q.getD k (0, 0)).2 rl g3 h3
  have ha := addAll_length (ul ++ cl ++ rl) (Q.eraseIdx k)
  have hkQ : k < Q.length := by
    rw [hk]
    exact Nat.mod_lt _ (List.length_pos.mpr hQne)
  have hQl := List.length_eraseIdx_of_lt hkQ
  refine ⟨ul ++ cl ++ rl, g3, ?_, hin, hout, hnews, hnd,
    shapeEq_trans hs3 (shapeEq_trans hs2 hs1),
    digitsGrid_of g3 g hdg hinv.1, nonEmptyGrid_of g3 g hneg hinv.2.1, ?_⟩
  · rw [consistencyPick_pop pick g Q hQne k hk, h1]
    simp only []
    rw [h2]
    simp only []
    rw [h3]
  · simp only [List.length_append] at ha
    omega

/-- A successful pop preserves the worklist invariant. -/
theorem wsinv_step (g g3 : GridT) (Q news : List Coord) (k : Nat) (d : Char)
    (hw : WSInv g Q) (hkQ : k < Q.length)
    (hnc : ¬PeerConflict g (Q.getD k (0, 0)).1 (Q.getD k (0, 0)).2 d)
    (hin : ∀ p, Peer (Q.getD k (0, 0)).1 (Q.getD k (0, 0)).2 p →
      getCell g3 p.1 p.2 = (getCell g p.1 p.2).filter (· ≠ d))
    (hout : ∀ p, ¬Peer (Q.getD k (0, 0)).1 (Q.getD k (0, 0)).2 p →
      getCell g3 p.1 p.2 = getCell g p.1 p.2)
    (hnews : ∀ p, p ∈ news ↔ (Peer (Q.getD k (0, 0)).1 (Q.getD k (0, 0)).2 p ∧
      (getCell g p.1 p.2).length = 2 ∧ d ∈ getCell g p.1 p.2))
    (hdg3 : DigitsGrid g3) (hne3 : NonEmptyGrid g3) :
    WSInv g3 (addAll (Q.eraseIdx k) news) := by
  refine ⟨hdg3, hne3, nodup_addAll news _ (nodup_eraseIdx Q k hw.2.2.1), ?_⟩
  intro q hq
  rw [mem_addAll] at hq
  rcases hq with hq | hq
  · have hqQ : q ∈ Q := ((mem_eraseIdx_nodup Q k hw.2.2.1 hkQ q).mp hq).1
    obtain ⟨h1, h2, h3⟩ := hw.2.2.2 q hqQ
    obtain ⟨e, he⟩ := List.length_eq_one.mp h3
    refine ⟨h1, h2, ?_⟩
    rw [singleton_survives g g3 _ _ d hnc hin hout q e he]
    rfl
  · obtain ⟨hpeer, hl2, hmd⟩ := (hnews q).mp hq
    refine ⟨hpeer.2.1, hpeer.2.2.1, ?_⟩
    rw [hin q hpeer]
    have hnd := nodup_of_digits g hw.1 q.1 q.2
    have hfl := filter_ne_length d (getCell g q.1 q.2) hnd
    rw [if_pos hmd] at hfl
    omega

/-- Fail propagation: once some worklist entry's singleton already has a
conflicting peer, the loop ends in failure no matter how the worklist is
popped. -/
theorem consistencyPick_false_of_conflict :
    ∀ (n : Nat) (g : GridT) (Q : List Coord) (pick : GridT → List Coord → Nat),
      2 * gsize g + Q.length ≤ n → WSInv g Q →
      (∃ q ∈ Q, ∃ dd, getCell g q.1 q.2 = [dd] ∧ PeerConflict g q.1 q.2 dd) →
      (consistencyPick pick g Q).2 = false := by
  intro n
  induction n using Nat.strong_induction_on with
  | _ n ih =>
    intro g Q pick hm hw hex
    obtain ⟨q0, hq0Q, dd, hdd, hcf⟩ := hex
    have hQne : Q ≠ [] := fun h => by
      rw [h] at hq0Q
      simp at hq0Q
    have hkQ : pick g Q % Q.length < Q.length := Nat.mod_lt _ (List.length_pos.mpr hQne)
    obtain ⟨hr, hc, hlen⟩ := hw.2.2.2 _ (getD_mem_of_lt Q (pick g Q % Q.length) hkQ)
    obtain ⟨dq, hdq⟩ := List.length_eq_one.mp hlen
    by_cases hcfq :
        PeerConflict g (Q.getD (pick g Q % Q.length) (0, 0)).1
          (Q.getD (pick g Q % Q.length) (0, 0)).2 dq
    · exact consistencyPick_step_fail pick g Q hQne hw.1 hw.2.1 _ rfl dq hdq hr hc hcfq
    · obtain ⟨news, g3, heq, hin, hout, hnews, hnd, hsh, hdg3, hne3, hdec⟩ :=
        consistencyPick_step_ok pick g Q hQne hw.1 hw.2.1 _ rfl dq hdq hr hc hcfq
      rw [heq]
      have hqne : q0 ≠ Q.getD (pick g Q % Q.length) (0, 0) := by
        intro hx
        apply hcfq
        rw [← hx]
        have : dd = dq := by
          rw [hx] at hdd
          rw [hdd] at hdq
          exact (List.singleton_inj.mp hdq.symm).symm
        rw [← this]
        exact hcf
      have hq0new : q0 ∈ addAll (Q.eraseIdx (pick g Q % Q.length)) news := by
        rw [mem_addAll]
        left
        rw [mem_eraseIdx_nodup Q _ hw.2.2.1 hkQ q0]
        exact ⟨hq0Q, hqne⟩
      have hq0cell : getCell g3 q0.1 q0.2 = [dd] :=
        singleton_survives g g3 _ _ dq hcfq hin hout q0 dd hdd
      obtain ⟨p, hpeer, hpd⟩ := hcf
      have hpcell : getCell g3 p.1 p.2 = [dd] := by
        by_cases hpr : Peer (Q.getD (pick g Q % Q.length) (0, 0)).1
            (Q.getD (pick g Q % Q.length) (0, 0)).2 p
        · have hdne : dd ≠ dq := by
            intro hx
            apply hcfq
            exact ⟨p, hpr, by rw [hpd, hx]⟩
          rw [hin p hpr, hpd]
          simp [List.filter_cons, hdne]
        · rw [hout p hpr]
          exact hpd
      exact ih (2 * gsize g3 + (addAll (Q.eraseIdx (pick g Q % Q.length)) news).length)
        (by omega) g3 _ pick le_rfl
        (wsinv_step g g3 Q news _ dq hw hkQ hcfq hin hout hnews hdg3 hne3)
        ⟨q0, hq0new, dd, hq0cell, ⟨p, hpeer, hpcell⟩⟩

end AC3

theorem resultEq_refl (x : GridT × Bool) : ResultEq x x := ⟨rfl, fun _ => rfl⟩

theorem resultEq_symm {x y : GridT × Bool} (h : ResultEq x y) : ResultEq y x :=
  ⟨h.1.symm, fun hy => (h.2 (h.1.trans hy)).symm⟩

theorem resultEq_trans {x y z : GridT × Bool} (h1 : ResultEq x y) (h2 : ResultEq y z) :
    ResultEq x z :=
  ⟨h1.1.trans h2.1, fun hx => (h1.2 hx).trans (h2.2 (h1.1.symm.trans hx))⟩

/-- Transfer of a conflict across the other pop: if popping `q1` first
makes `q2`'s propagation fail, then popping `q2` first makes `q1`'s
propagation fail (both failures stem from a common peer holding exactly
the two digits). -/
theorem peerConflict_transfer (g gA gB : GridT) (q1 q2 : Coord) (d1 d2 : Char)
    (hdg : DigitsGrid g)
    (hnc2 : ¬PeerConflict g q2.1 q2.2 d2)
    (hinA : ∀ p, Peer q1.1 q1.2 p →
      getCell gA p.1 p.2 = (getCell g p.1 p.2).filter (· ≠ d1))
    (houtA : ∀ p, ¬Peer q1.1 q1.2 p → getCell gA p.1 p.2 = getCell g p.1 p.2)
    (hinB : ∀ p, Peer q2.1 q2.2 p →
      getCell gB p.1 p.2 = (getCell g p.1 p.2).filter (· ≠ d2))
    (hcl : PeerConflict gA q2.1 q2.2 d2) : PeerConflict gB q1.1 q1.2 d1 := by
  obtain ⟨p, hpeer2, hpd⟩ := hcl
  by_cases hpeer1 : Peer q1.1 q1.2 p
  · rw [hinA p hpeer1] at hpd
    rcases filter_eq_singleton_cases _ d1 d2 (nodup_of_digits g hdg p.1 p.2) hpd with
      ⟨hLe, -⟩ | ⟨-, -, -, -, hflip⟩
    · exact absurd ⟨p, hpeer2, hLe⟩ hnc2
    · refine ⟨p, hpeer1, ?_⟩
      rw [hinB p hpeer2]
      exact hflip
  · rw [houtA p hpeer1] at hpd
    exact absurd ⟨p, hpeer2, hpd⟩ hnc2

/-- Two clean pops in either order produce the same grid. -/
theorem pop_commute_grid (g gA gB gAB gBA : GridT) (q1 q2 : Coord) (d1 d2 : Char)
    (hinA : ∀ p, Peer q1.1 q1.2 p →
      getCell gA p.1 p.2 = (getCell g p.1 p.2).filter (· ≠ d1))
    (houtA : ∀ p, ¬Peer q1.1 q1.2 p → getCell gA p.1 p.2 = getCell g p.1 p.2)
    (hinB : ∀ p, Peer q2.1 q2.2 p →
      getCell gB p.1 p.2 = (getCell g p.1 p.2).filter (· ≠ d2))
    (houtB : ∀ p, ¬Peer q2.1 q2.2 p → getCell gB p.1 p.2 = getCell g p.1 p.2)
    (hinAB : ∀ p, Peer q2.1 q2.2 p →
      getCell gAB p.1 p.2 = (getCell gA p.1 p.2).filter (· ≠ d2))
    (houtAB : ∀ p, ¬Peer q2.1 q2.2 p → getCell gAB p.1 p.2 = getCell gA p.1 p.2)
    (hinBA : ∀ p, Peer q1.1 q1.2 p →
      getCell gBA p.1 p.2 = (getCell gB p.1 p.2).filter (· ≠ d1))
    (houtBA : ∀ p, ¬Peer q1.1 q1.2 p → getCell gBA p.1 p.2 = getCell gB p.1 p.2)
    (hshape : ShapeEq gAB gBA) : gAB = gBA := by
  apply grid_ext_shape _ _ hshape
  intro i j
  by_cases hp1 : Peer q1.1 q1.2 (i, j) <;> by_cases hp2 : Peer q2.1 q2.2 (i, j)
  · rw [hinAB (i, j) hp2, hinA (i, j) hp1, hinBA (i, j) hp1, hinB (i, j) hp2]
    exact filter_ne_comm _ d1 d2
  · rw [houtAB (i, j) hp2, hinA (i, j) hp1, hinBA (i, j) hp1, houtB (i, j) hp2]
  · rw [hinAB (i, j) hp2, houtA (i, j) hp1, houtBA (i, j) hp1, hinB (i, j) hp2]
  · rw [houtAB (i, j) hp2, houtA (i, j) hp1, houtBA (i, j) hp1, houtB (i, j) hp2]

/-- Two clean pops in either order enqueue the same set of
newly-singleton cells. -/
theorem news_union_comm (g gA gB : GridT) (q1 q2 : Coord) (d1 d2 : Char)
    (hdg : DigitsGrid g)
    (hinA : ∀ p, Peer q1.1 q1.2 p →
      getCell gA p.1 p.2 = (getCell g p.1 p.2).filter (· ≠ d1))
    (houtA : ∀ p, ¬Peer q1.1 q1.2 p → getCell gA p.1 p.2 = getCell g p.1 p.2)
    (hinB : ∀ p, Peer q2.1 q2.2 p →
      getCell gB p.1 p.2 = (getCell g p.1 p.2).filter (· ≠ d2))
    (houtB : ∀ p, ¬Peer q2.1 q2.2 p → getCell gB p.1 p.2 = getCell g p.1 p.2)
    (p : Coord) :
    ((Peer q1.1 q1.2 p ∧ (getCell g p.1 p.2).length = 2 ∧ d1 ∈ getCell g p.1 p.2) ∨
      (Peer q2.1 q2.2 p ∧ (getCell gA p.1 p.2).length = 2 ∧ d2 ∈ getCell gA p.1 p.2)) ↔
    ((Peer q2.1 q2.2 p ∧ (getCell g p.1 p.2).length = 2 ∧ d2 ∈ getCell g p.1 p.2) ∨
      (Peer q1.1 q1.2 p ∧ (getCell gB p.1 p.2).length = 2 ∧ d1 ∈ getCell gB p.1 p.2)) := by
  have hnd := nodup_of_digits g hdg p.1 p.2
  by_cases hp1 : Peer q1.1 q1.2 p
  · by_cases hp2 : Peer q2.1 q2.2 p
    · rw [hinA p hp1, hinB p hp2]
      have hfl1 := filter_ne_length d1 (getCell g p.1 p.2) hnd
      have hfl2 := filter_ne_length d2 (getCell g p.1 p.2) hnd
      by_cases h12 : d1 = d2
      · subst h12
        constructor
        · rintro (⟨-, hl, hm⟩ | ⟨-, -, hm⟩)
          · exact Or.inl ⟨hp2, hl, hm⟩
          · exact absurd hm (not_mem_filter_ne _ d1)
        · rintro (⟨-, hl, hm⟩ | ⟨-, -, hm⟩)
          · exact Or.inl ⟨hp1, hl, hm⟩
          · exact absurd hm (not_mem_filter_ne _ d1)
      · by_cases hm1 : d1 ∈ getCell g p.1 p.2
        · rw [if_pos hm1] at hfl1
          by_cases hm2 : d2 ∈ getCell g p.1 p.2
          · rw [if_pos hm2] at hfl2
            constructor
            · rintro (⟨-, hl, -⟩ | ⟨-, hl, -⟩)
              · exact Or.inl ⟨hp2, hl, hm2⟩
              · refine Or.inr ⟨hp1, by omega, ?_⟩
                rw [mem_filter_ne]
                exact ⟨hm1, fun hx => h12 hx⟩
            · rintro (⟨-, hl, -⟩ | ⟨-, hl, -⟩)
              · exact Or.inl ⟨hp1, hl, hm1⟩
              · refine Or.inr ⟨hp2, by omega, ?_⟩
                rw [mem_filter_ne]
                exact ⟨hm2, fun hx => h12 hx.symm⟩
          · rw [if_neg hm2] at hfl2
            constructor
            · rintro (⟨-, hl, -⟩ | ⟨-, -, hm⟩)
              · refine Or.inr ⟨hp1, by omega, ?_⟩
                rw [mem_filter_ne]
                exact ⟨hm1, fun hx => h12 hx⟩
              · rw [mem_filter_ne] at hm
                exact absurd hm.1 hm2
            · rintro (⟨-, -, hm⟩ | ⟨-, hl, hm⟩)
              · exact absurd hm hm2
              · rw [mem_filter_ne] at hm
                exact Or.inl ⟨hp1, by omega, hm.1⟩
        · rw [if_neg hm1] at hfl1
          by_cases hm2 : d2 ∈ getCell g p.1 p.2
          · rw [if_pos hm2] at hfl2
            constructor
            · rintro (⟨-, -, hm⟩ | ⟨-, hl, hm⟩)
              · exact absurd hm hm1
              · rw [mem_filter_ne] at hm
                exact Or.inl ⟨hp2, by omega, hm.1⟩
            · rintro (⟨-, hl, -⟩ | ⟨-, -, hm⟩)
              · refine Or.inr ⟨hp2, by omega, ?_⟩
                rw [mem_filter_ne]
                exact ⟨hm2, fun hx => h12 hx.symm⟩
              · rw [mem_filter_ne] at hm
                exact absurd hm.1 hm1
          · rw [if_neg hm2] at hfl2
            constructor
            · rintro (⟨-, -, hm⟩ | ⟨-, -, hm⟩)
              · exact absurd hm hm1
              · rw [mem_filter_ne] at hm
                exact absurd hm.1 hm2
            · rintro (⟨-, -, hm⟩ | ⟨-, -, hm⟩)
              · exact absurd hm hm2
              · rw [mem_filter_ne] at hm
                exact absurd hm.1 hm1
    · rw [houtB p hp2]
      constructor
      · rintro (⟨-, hl, hm⟩ | ⟨hx, -⟩)
        · exact Or.inr ⟨hp1, hl, hm⟩
        · exact absurd hx hp2
      · rintro (⟨hx, -⟩ | ⟨-, hl, hm⟩)
        · exact absurd hx hp2
        · exact Or.inl ⟨hp1, hl, hm⟩
  · by_cases hp2 : Peer q2.1 q2.2 p
    · rw [houtA p hp1]
      constructor
      · rintro (⟨hx, -⟩ | ⟨-, hl, hm⟩)
        · exact absurd hx hp1
        · exact Or.inl ⟨hp2, hl, hm⟩
      · rintro (⟨-, hl, hm⟩ | ⟨hx, -⟩)
        · exact Or.inr ⟨hp2, hl, hm⟩
        · exact absurd hx hp1
    · constructor
      · rintro (⟨hx, -⟩ | ⟨hx, -⟩)
        · exact absurd hx hp1
        · exact absurd hx hp2
      · rintro (⟨hx, -⟩ | ⟨hx, -⟩)
        · exact absurd hx hp2
        · exact absurd hx hp1

theorem peer_ne_pair (q p : Coord) (h : Peer q.1 q.2 p) : p ≠ q := by
  intro he
  exact h.1 ⟨by rw [he], by rw [he]⟩

namespace AC3

theorem consistencyPick_nil (pick : GridT → List Coord → Nat) (g : GridT) :
    consistencyPick pick g [] = (g, true) := by
  simp [consistencyPick, consistencyPickF]

/-- Confluence of the worklist loop: over grids of non-empty digit
domains and duplicate-free singleton worklists, any two pop strategies
(and any two arrangements of the same worklist set) give the same
verdict, and on success the same grid. -/
theorem consistencyPick_confluent :
    ∀ (n : Nat) (g : GridT) (Q Q2 : List Coord) (pick pick2 : GridT → List Coord → Nat),
      2 * gsize g + Q.length ≤ n → WSInv g Q → Q.Perm Q2 →
      ResultEq (consistencyPick pick g Q) (consistencyPick pick2 g Q2) := by
  intro n
  induction n using Nat.strong_induction_on with
  | _ n ih =>
    intro g Q Q2 pick pick2 hm hw hperm
    by_cases hQne : Q = []
    · subst hQne
      have hQ2 : Q2 = [] := List.Perm.eq_nil hperm.symm
      rw [hQ2, consistencyPick_nil, consistencyPick_nil]
      exact resultEq_refl _
    have hQ2ne : Q2 ≠ [] := by
      intro h
      rw [h] at hperm
      exact hQne (List.Perm.eq_nil hperm)
    have hwq2 : WSInv g Q2 :=
      ⟨hw.1, hw.2.1, hperm.nodup hw.2.2.1, fun q hq => hw.2.2.2 q (hperm.mem_iff.mpr hq)⟩
    have hlen12 : Q.length = Q2.length := hperm.length_eq
    have hk1lt : pick g Q % Q.length < Q.length := Nat.mod_lt _ (List.length_pos.mpr hQne)
    have hk2lt : pick2 g Q2 % Q2.length < Q2.length :=
      Nat.mod_lt _ (List.length_pos.mpr hQ2ne)
    have hq1Q : Q.getD (pick g Q % Q.length) (0, 0) ∈ Q := getD_mem_of_lt Q _ hk1lt
    have hq2Q2 : Q2.getD (pick2 g Q2 % Q2.length) (0, 0) ∈ Q2 := getD_mem_of_lt Q2 _ hk2lt
    obtain ⟨hr1, hc1, hlen1⟩ := hw.2.2.2 _ hq1Q
    obtain ⟨d1, hd1⟩ := List.length_eq_one.mp hlen1
    obtain ⟨hr2, hc2, hlen2⟩ := hwq2.2.2.2 _ hq2Q2
    obtain ⟨d2, hd2⟩ := List.length_eq_one.mp hlen2
    by_cases hc1f : PeerConflict g (Q.getD (pick g Q % Q.length) (0, 0)).1
        (Q.getD (pick g Q % Q.length) (0, 0)).2 d1
    · have hv1 := consistencyPick_step_fail pick g Q hQne hw.1 hw.2.1 _ rfl d1 hd1 hr1 hc1 hc1f
      have hv2 := consistencyPick_false_of_conflict (2 * gsize g + Q2.length) g Q2 pick2
        le_rfl hwq2 ⟨_, hperm.mem_iff.mp hq1Q, d1, hd1, hc1f⟩
      exact ⟨hv1.trans hv2.symm, fun hx => absurd (hv1.symm.trans hx) Bool.false_ne_true⟩
    by_cases hc2f : PeerConflict g (Q2.getD (pick2 g Q2 % Q2.length) (0, 0)).1
        (Q2.getD (pick2 g Q2 % Q2.length) (0, 0)).2 d2
    · have hv2 := consistencyPick_step_fail pick2 g Q2 hQ2ne hwq2.1 hwq2.2.1 _ rfl d2 hd2
        hr2 hc2 hc2f
      have hv1 := consistencyPick_false_of_conflict (2 * gsize g + Q.length) g Q pick
        le_rfl hw ⟨_, hperm.mem_iff.mpr hq2Q2, d2, hd2, hc2f⟩
      exact ⟨hv1.trans hv2.symm, fun hx => absurd (hv1.symm.trans hx) Bool.false_ne_true⟩
    obtain ⟨nA, gA, heqA, hinA, houtA, hnewsA, hndA, hshA, hdgA, hneA, hdecA⟩ :=
      consistencyPick_step_ok pick g Q hQne hw.1 hw.2.1 _ rfl d1 hd1 hr1 hc1 hc1f
    obtain ⟨nB, gB, heqB, hinB, houtB, hnewsB, hndB, hshB, hdgB, hneB, hdecB⟩ :=
      consistencyPick_step_ok pick2 g Q2 hQ2ne hwq2.1 hwq2.2.1 _ rfl d2 hd2 hr2 hc2 hc2f
    have hwA := wsinv_step g gA Q nA _ d1 hw hk1lt hc1f hinA houtA hnewsA hdgA hneA
    have hwB := wsinv_step g gB Q2 nB _ d2 hwq2 hk2lt hc2f hinB houtB hnewsB hdgB hneB
    obtain ⟨q1, hq1e⟩ : ∃ x, Q.getD (pick g Q % Q.length) (0, 0) = x := ⟨_, rfl⟩
    obtain ⟨q2, hq2e⟩ : ∃ x, Q2.getD (pick2 g Q2 % Q2.length) (0, 0) = x := ⟨_, rfl⟩
    rw [hq1e] at hinA houtA hnewsA hd1 hr1 hc1 hc1f hq1Q
    rw [hq2e] at hinB houtB hnewsB hd2 hr2 hc2 hc2f hq2Q2
    by_cases heq12 : q1 = q2
    · -- both strategies popped the same cell
      rw [← heq12] at hinB houtB hnewsB hd2
      have hd12 : d1 = d2 := List.singleton_inj.mp (hd1.symm.trans hd2)
      subst hd12
      have hgeq : gA = gB := by
        apply grid_ext_shape _ _ (shapeEq_trans hshA (shapeEq_symm hshB))
        intro i j
        by_cases hp : Peer q1.1 q1.2 (i, j)
        · rw [hinA (i, j) hp, hinB (i, j) hp]
        · rw [houtA (i, j) hp, houtB (i, j) hp]
      have hpermQ : (addAll (Q.eraseIdx (pick g Q % Q.length)) nA).Perm
          (addAll (Q2.eraseIdx (pick2 g Q2 % Q2.length)) nB) := by
        rw [List.perm_ext_iff_of_nodup
          (nodup_addAll nA _ (nodup_eraseIdx Q _ hw.2.2.1))
          (nodup_addAll nB _ (nodup_eraseIdx Q2 _ hwq2.2.2.1))]
        intro x
        rw [mem_addAll, mem_addAll,
          mem_eraseIdx_nodup Q _ hw.2.2.1 hk1lt x,
          mem_eraseIdx_nodup Q2 _ hwq2.2.2.1 hk2lt x,
          hq1e, hq2e, ← heq12, hnewsA x, hnewsB x]
        have hmemQ : x ∈ Q ↔ x ∈ Q2 := hperm.mem_iff
        tauto
      rw [heqA, heqB, ← hgeq]
      exact ih (2 * gsize gA + (addAll (Q.eraseIdx (pick g Q % Q.length)) nA).length)
        (by omega) gA _ _ pick pick2 le_rfl hwA hpermQ
    · -- distinct cells popped: strip and commute
      have hq2Q : q2 ∈ Q := hperm.mem_iff.mpr hq2Q2
      have hq1Q2 : q1 ∈ Q2 := hperm.mem_iff.mp hq1Q
      have hq2QA : q2 ∈ addAll (Q.eraseIdx (pick g Q % Q.length)) nA := by
        rw [mem_addAll]
        left
        rw [mem_eraseIdx_nodup Q _ hw.2.2.1 hk1lt q2, hq1e]
        exact ⟨hq2Q, fun hx => heq12 hx.symm⟩
      have hq1QB : q1 ∈ addAll (Q2.eraseIdx (pick2 g Q2 % Q2.length)) nB := by
        rw [mem_addAll]
        left
        rw [mem_eraseIdx_nodup Q2 _ hwq2.2.2.1 hk2lt q1, hq2e]
        exact ⟨hq1Q2, heq12⟩
      have hcellA2 : getCell gA q2.1 q2.2 = [d2] :=
        singleton_survives g gA q1.1 q1.2 d1 hc1f hinA houtA q2 d2 hd2
      have hcellB1 : getCell gB q1.1 q1.2 = [d1] :=
        singleton_survives g gB q2.1 q2.2 d2 hc2f hinB houtB q1 d1 hd1
      by_cases hclash : PeerConflict gA q2.1 q2.2 d2
      · have hv1 : (consistencyPick pick g Q).2 = false := by
          rw [heqA]
          exact consistencyPick_false_of_conflict
            (2 * gsize gA + (addAll (Q.eraseIdx (pick g Q % Q.length)) nA).length)
            gA _ pick le_rfl hwA ⟨q2, hq2QA, d2, hcellA2, hclash⟩
        have hclashB : PeerConflict gB q1.1 q1.2 d1 :=
          peerConflict_transfer g gA gB q1 q2 d1 d2 hw.1 hc2f hinA houtA hinB hclash
        have hv2 : (consistencyPick pick2 g Q2).2 = false := by
          rw [heqB]
          exact consistencyPick_false_of_conflict
            (2 * gsize gB + (addAll (Q2.eraseIdx (pick2 g Q2 % Q2.length)) nB).length)
            gB _ pick2 le_rfl hwB ⟨q1, hq1QB, d1, hcellB1, hclashB⟩
        exact ⟨hv1.trans hv2.symm, fun hx => absurd (hv1.symm.trans hx) Bool.false_ne_true⟩
      · have hclashB : ¬PeerConflict gB q1.1 q1.2 d1 := fun hB =>
          hclash (peerConflict_transfer g gB gA q2 q1 d2 d1 hw.1 hc1f hinB houtB hinA hB)
        obtain ⟨iA, hiAlt, hgA⟩ := List.mem_iff_getElem.mp hq2QA
        obtain ⟨iB, hiBlt, hgB⟩ := List.mem_iff_getElem.mp hq1QB
        have hQAne : addAll (Q.eraseIdx (pick g Q % Q.length)) nA ≠ [] := by
          intro h
          rw [h] at hq2QA
          simp at hq2QA
        have hQBne : addAll (Q2.eraseIdx (pick2 g Q2 % Q2.length)) nB ≠ [] := by
          intro h
          rw [h] at hq1QB
          simp at hq1QB
        have hgetA : (addAll (Q.eraseIdx (pick g Q % Q.length)) nA).getD iA (0, 0) = q2 := by
          rw [List.getD_eq_getElem?_getD, List.getElem?_eq_getElem hiAlt]
          simp only [Option.getD_some]
          exact hgA
        have hgetB : (addAll (Q2.eraseIdx (pick2 g Q2 % Q2.length)) nB).getD iB (0, 0) = q1 := by
          rw [List.getD_eq_getElem?_getD, List.getElem?_eq_getElem hiBlt]
          simp only [Option.getD_some]
          exact hgB
        obtain ⟨nAB, gAB, heqAB, hinAB, houtAB, hnewsAB, hndAB, hshAB, hdgAB, hneAB, hdecAB⟩ :=
          consistencyPick_step_ok (fun _ _ => iA)
            gA _ hQAne hwA.1 hwA.2.1 iA (Nat.mod_eq_of_lt hiAlt).symm d2
            (by rw [hgetA]; exact hcellA2) (by rw [hgetA]; exact hr2)
            (by rw [hgetA]; exact hc2) (by rw [hgetA]; exact hclash)
        obtain ⟨nBA, gBA, heqBA, hinBA, houtBA, hnewsBA, hndBA, hshBA, hdgBA, hneBA, hdecBA⟩ :=
          consistencyPick_step_ok (fun _ _ => iB)
            gB _ hQBne hwB.1 hwB.2.1 iB (Nat.mod_eq_of_lt hiBlt).symm d1
            (by rw [hgetB]; exact hcellB1) (by rw [hgetB]; exact hr1)
            (by rw [hgetB]; exact hc1) (by rw [hgetB]; exact hclashB)
        have hwAB := wsinv_step gA gAB _ nAB iA d2 hwA hiAlt
          (by rw [hgetA]; exact hclash) hinAB houtAB hnewsAB hdgAB hneAB
        have hwBA := wsinv_step gB gBA _ nBA iB d1 hwB hiBlt
          (by rw [hgetB]; exact hclashB) hinBA houtBA hnewsBA hdgBA hneBA
        rw [hgetA] at hinAB houtAB hnewsAB
        rw [hgetB] at hinBA houtBA hnewsBA
        have hgridC : gAB = gBA :=
          pop_commute_grid g gA gB gAB gBA q1 q2 d1 d2 hinA houtA hinB houtB
            hinAB houtAB hinBA houtBA
            (shapeEq_trans (shapeEq_trans hshAB hshA)
              (shapeEq_symm (shapeEq_trans hshBA hshB)))
        have hpermC : (addAll ((addAll (Q.eraseIdx (pick g Q % Q.length)) nA).eraseIdx iA)
              nAB).Perm
            (addAll ((addAll (Q2.eraseIdx (pick2 g Q2 % Q2.length)) nB).eraseIdx iB)
              nBA) := by
          rw [List.perm_ext_iff_of_nodup
            (nodup_addAll nAB _ (nodup_eraseIdx _ _ hwA.2.2.1))
            (nodup_addAll nBA _ (nodup_eraseIdx _ _ hwB.2.2.1))]
          intro x
          rw [mem_addAll, mem_addAll,
            mem_eraseIdx_nodup _ _ hwA.2.2.1 hiAlt x,
            mem_eraseIdx_nodup _ _ hwB.2.2.1 hiBlt x,
            hgetA, hgetB, mem_addAll, mem_addAll,
            mem_eraseIdx_nodup Q _ hw.2.2.1 hk1lt x,
            mem_eraseIdx_nodup Q2 _ hwq2.2.2.1 hk2lt x,
            hq1e, hq2e, hnewsA x, hnewsB x, hnewsAB x, hnewsBA x]
          have hmemQ : x ∈ Q ↔ x ∈ Q2 := hperm.mem_iff
          have hunion := news_union_comm g gA gB q1 q2 d1 d2 hw.1 hinA houtA hinB houtB x
          have hnq1 : ¬(Peer q2.1 q2.2 q1 ∧ (getCell g q1.1 q1.2).length = 2 ∧
              d2 ∈ getCell g q1.1 q1.2) := by
            rintro ⟨-, hl, -⟩
            rw [hd1] at hl
            simp at hl
          have hnq2 : ¬(Peer q1.1 q1.2 q2 ∧ (getCell g q2.1 q2.2).length = 2 ∧
              d1 ∈ getCell g q2.1 q2.2) := by
            rintro ⟨-, hl, -⟩
            rw [hd2] at hl
            simp at hl
          have hnq1AB : ¬(Peer q2.1 q2.2 q1 ∧ (getCell gA q1.1 q1.2).length = 2 ∧
              d2 ∈ getCell gA q1.1 q1.2) := by
            rintro ⟨-, hl, -⟩
            rw [houtA q1 (fun hp => (peer_ne_pair q1 q1 hp) rfl), hd1] at hl
            simp at hl
          have hnq2BA : ¬(Peer q1.1 q1.2 q2 ∧ (getCell gB q2.1 q2.2).length = 2 ∧
              d1 ∈ getCell gB q2.1 q2.2) := by
            rintro ⟨-, hl, -⟩
            rw [houtB q2 (fun hp => (peer_ne_pair q2 q2 hp) rfl), hd2] at hl
            simp at hl
          constructor
          · rintro (⟨hL | hL, hxq2⟩ | hL)
            · obtain ⟨hxQ, hxq1⟩ := hL
              exact Or.inl ⟨Or.inl ⟨hmemQ.mp hxQ, hxq2⟩, hxq1⟩
            · rcases hunion.mp (Or.inl hL) with hR | hR
              · refine Or.inl ⟨Or.inr hR, ?_⟩
                intro hx
                rw [hx] at hL
                exact (peer_ne_pair q1 q1 hL.1) rfl
              · exact Or.inr hR
            · rcases hunion.mp (Or.inr hL) with hR | hR
              · refine Or.inl ⟨Or.inr hR, ?_⟩
                intro hx
                rw [hx] at hL
                exact hnq1AB hL
              · exact Or.inr hR
          · rintro (⟨hL | hL, hxq1⟩ | hL)
            · obtain ⟨hxQ2, hxq2⟩ := hL
              exact Or.inl ⟨Or.inl ⟨hmemQ.mpr hxQ2, hxq1⟩, hxq2⟩
            · rcases hunion.mpr (Or.inl hL) with hR | hR
              · refine Or.inl ⟨Or.inr hR, ?_⟩
                intro hx
                rw [hx] at hL
                exact (peer_ne_pair q2 q2 hL.1) rfl
              · exact Or.inr hR
            · rcases hunion.mpr (Or.inr hL) with hR | hR
              · refine Or.inl ⟨Or.inr hR, ?_⟩
                intro hx
                rw [hx] at hL
                exact hnq2BA hL
              · exact Or.inr hR
        rw [heqA, heqB]
        refine resultEq_trans (ih (2 * gsize gA +
            (addAll (Q.eraseIdx (pick g Q % Q.length)) nA).length) (by omega)
          gA _ _ pick (fun _ _ => iA)
          le_rfl hwA (List.Perm.refl _)) ?_
        rw [heqAB]
        refine resultEq_trans ?_ (resultEq_symm (ih (2 * gsize gB +
            (addAll (Q2.eraseIdx (pick2 g Q2 % Q2.length)) nB).length) (by omega)
          gB _ _ pick2 (fun _ _ => iB)
          le_rfl hwB (List.Perm.refl _)))
        rw [heqBA, ← hgridC]
        exact ih (2 * gsize gAB +
            (addAll ((addAll (Q.eraseIdx (pick g Q % Q.length)) nA).eraseIdx iA)
              nAB).length)
          (by omega) gAB _ _ (fun _ _ => iA) (fun _ _ => iB)
          le_rfl hwAB hpermC

end AC3

namespace Grid

theorem is_value_consistent_iff (g : GridT) (v : Domain) (row col : Nat) :
    is_value_consistent g v row col = true ↔
      ((∀ i, i < 9 → i ≠ col → getCell g row i ≠ v) ∧
       (∀ i, i < 9 → i ≠ row → getCell g i col ≠ v) ∧
       (∀ a b, a < 3 → b < 3 → ¬(row / 3 * 3 + a = row ∧ col / 3 * 3 + b = col) →
         getCell g (row / 3 * 3 + a) (col / 3 * 3 + b) ≠ v)) := by
  unfold is_value_consistent width
  simp only [List.all_eq_true, List.mem_range, Bool.and_eq_true, Bool.or_eq_true,
    beq_iff_eq, Bool.not_eq_eq_eq_not, Bool.not_true, beq_eq_false_iff_ne, ne_eq]
  constructor
  · rintro ⟨h1, h2, h3⟩
    refine ⟨fun i hi hic => ?_, fun i hi hir => ?_, fun a b ha hb hab => ?_⟩
    · rcases h1 i hi with h | h
      · exact absurd h hic
      · exact h
    · rcases h2 i hi with h | h
      · exact absurd h hir
      · exact h
    · rcases h3 a ha b hb with h | h
      · exact absurd h hab
      · exact h
  · rintro ⟨h1, h2, h3⟩
    refine ⟨fun i hi => ?_, fun i hi => ?_, fun a ha b hb => ?_⟩
    · by_cases hic : i = col
      · exact Or.inl hic
      · exact Or.inr (h1 i hi hic)
    · by_cases hir : i = row
      · exact Or.inl hir
      · exact Or.inr (h2 i hi hir)
    · by_cases hab : row / 3 * 3 + a = row ∧ col / 3 * 3 + b = col
      · exact Or.inl hab
      · exact Or.inr (h3 a b ha hb hab)

theorem is_solved_iff (g : GridT) :
    is_solved g = true ↔
      ∀ i j, i < 9 → j < 9 →
        (getCell g i j).length ≤ 1 ∧ is_value_consistent g (getCell g i j) i j = true := by
  unfold is_solved width
  simp only [List.all_eq_true, List.mem_range, Bool.and_eq_true, Bool.not_eq_eq_eq_not,
    Bool.not_true, decide_eq_false_iff_not, not_lt]
  constructor
  · intro h i j hi hj
    exact h i hi j hj
  · intro h i hi j hj
    exact h i j hi hj

/-- In a solved grid every in-range non-empty cell is a singleton. -/
theorem solved_singleton (g : GridT) (hs : is_solved g = true) (hne : NonEmptyGrid g)
    (i j : Nat) (hi : i < 9) (hj : j < 9) : ∃ c, getCell g i j = [c] := by
  have h := ((is_solved_iff g).mp hs) i j hi hj
  rcases hl : getCell g i j with _ | ⟨c, rest⟩
  · exact absurd hl (hne i j hi hj)
  · rw [hl] at h
    simp only [List.length_cons] at h
    have : rest = [] := List.length_eq_zero.mp (by omega)
    exact ⟨c, by rw [this]⟩

theorem solved_row_ne (g : GridT) (hs : is_solved g = true)
    (r j1 j2 : Nat) (hr : r < 9) (h1 : j1 < 9) (h2 : j2 < 9) (hne : j1 ≠ j2) :
    getCell g r j1 ≠ getCell g r j2 := by
  have h := ((is_solved_iff g).mp hs) r j2 hr h2
  exact ((is_value_consistent_iff g _ r j2).mp h.2).1 j1 h1 hne

theorem solved_col_ne (g : GridT) (hs : is_solved g = true)
    (c i1 i2 : Nat) (hc : c < 9) (h1 : i1 < 9) (h2 : i2 < 9) (hne : i1 ≠ i2) :
    getCell g i1 c ≠ getCell g i2 c := by
  have h := ((is_solved_iff g).mp hs) i2 c h2 hc
  exact ((is_value_consistent_iff g _ i2 c).mp h.2).2.1 i1 h1 hne

theorem solved_box_ne (g : GridT) (hs : is_solved g = true)
    (i1 j1 i2 j2 : Nat) (hi1 : i1 < 9) (hj1 : j1 < 9) (hi2 : i2 < 9) (hj2 : j2 < 9)
    (hbi : i1 / 3 = i2 / 3) (hbj : j1 / 3 = j2 / 3) (hne : ¬(i1 = i2 ∧ j1 = j2)) :
    getCell g i1 j1 ≠ getCell g i2 j2 := by
  have h := ((is_solved_iff g).mp hs) i2 j2 hi2 hj2
  have hbox := ((is_value_consistent_iff g _ i2 j2).mp h.2).2.2
  have ha : i1 % 3 < 3 := Nat.mod_lt _ (by omega)
  have hb : j1 % 3 < 3 := Nat.mod_lt _ (by omega)
  have hia : i2 / 3 * 3 + i1 % 3 = i1 := by omega
  have hjb : j2 / 3 * 3 + j1 % 3 = j1 := by omega
  have hx := hbox (i1 % 3) (j1 % 3) ha hb
  rw [hia, hjb] at hx
  exact hx (by tauto)

end Grid

theorem mem_allCoords (p : Coord) : p ∈ allCoords ↔ p.1 < 9 ∧ p.2 < 9 := by
  obtain ⟨i, j⟩ := p
  unfold allCoords width
  simp [List.mem_flatMap]

theorem FirstAvailable.select_spec_fa (g : GridT) (r c : Nat)
    (h : FirstAvailable.select_variable g = some (r, c)) :
    r < 9 ∧ c < 9 ∧ 1 < (getCell g r c).length := by
  unfold FirstAvailable.select_variable width at h
  rcases List.exists_of_findSome?_eq_some h with ⟨i, hi, hfi⟩
  rcases List.exists_of_findSome?_eq_some hfi with ⟨j, hj, hfj⟩
  by_cases hlen : 1 < (getCell g i j).length
  · rw [if_pos hlen] at hfj
    obtain ⟨rfl, rfl⟩ : i = r ∧ j = c := by
      constructor <;> [exact congrArg Prod.fst (Option.some.inj hfj);
        exact congrArg Prod.snd (Option.some.inj hfj)]
    exact ⟨by simpa using hi, by simpa using hj, hlen⟩
  · rw [if_neg hlen] at hfj
    exact absurd hfj (by simp)

theorem MRV.step_spec (g : GridT) (st : Option (Nat × Coord)) (a : Coord)
    (hst : ∀ m p, st = some (m, p) → p.1 < 9 ∧ p.2 < 9 ∧ 1 < (getCell g p.1 p.2).length)
    (ha : a.1 < 9 ∧ a.2 < 9) :
    ∀ m p, MRV.step g st a = some (m, p) →
      p.1 < 9 ∧ p.2 < 9 ∧ 1 < (getCell g p.1 p.2).length := by
  intro m p hp
  cases st with
  | none =>
    simp only [MRV.step] at hp
    by_cases hds : 1 < (getCell g a.1 a.2).length
    · rw [if_pos hds] at hp
      simp only [Option.some.injEq, Prod.mk.injEq] at hp
      obtain ⟨hm, rfl⟩ := hp
      exact ⟨ha.1, ha.2, hds⟩
    · rw [if_neg hds] at hp
      exact absurd hp (by simp)
  | some mp =>
    obtain ⟨m0, p0⟩ := mp
    simp only [MRV.step] at hp
    by_cases hds : 1 < (getCell g a.1 a.2).length ∧ (getCell g a.1 a.2).length < m0
    · rw [if_pos hds] at hp
      simp only [Option.some.injEq, Prod.mk.injEq] at hp
      obtain ⟨hm, rfl⟩ := hp
      exact ⟨ha.1, ha.2, hds.1⟩
    · rw [if_neg hds] at hp
      simp only [Option.some.injEq, Prod.mk.injEq] at hp
      obtain ⟨hm, rfl⟩ := hp
      exact hst m0 p0 rfl

theorem MRV.select_spec_mrv (g : GridT) (r c : Nat)
    (h : MRV.select_variable g = some (r, c)) :
    r < 9 ∧ c < 9 ∧ 1 < (getCell g r c).length := by
  unfold MRV.select_variable at h
  have key : ∀ (l : List Coord) (st : Option (Nat × Coord)),
      (∀ p ∈ l, p.1 < 9 ∧ p.2 < 9) →
      (∀ m p, st = some (m, p) → p.1 < 9 ∧ p.2 < 9 ∧ 1 < (getCell g p.1 p.2).length) →
      ∀ m p, l.foldl (MRV.step g) st = some (m, p) →
        p.1 < 9 ∧ p.2 < 9 ∧ 1 < (getCell g p.1 p.2).length := by
    intro l
    induction l with
    | nil => intro st hl hst m p hp; exact hst m p hp
    | cons a rest ih =>
      intro st hl hst m p hp
      rw [List.foldl_cons] at hp
      exact ih (MRV.step g st a) (fun q hq => hl q (List.mem_cons_of_mem _ hq))
        (MRV.step_spec g st a hst (hl a (List.mem_cons_self a rest))) m p hp
  rcases hfold : allCoords.foldl (MRV.step g) none with _ | ⟨m, p⟩
  · rw [hfold] at h
    exact absurd h (by simp)
  · rw [hfold] at h
    have hp := key allCoords none (fun q hq => (mem_allCoords q).mp hq) (by simp) m p hfold
    obtain rfl : p = (r, c) := by simpa using h
    exact hp

theorem select_variable_spec (sel : VarSelector) (g : GridT) (r c : Nat)
    (h : select_variable sel g = some (r, c)) :
    r < 9 ∧ c < 9 ∧ 1 < (getCell g r c).length := by
  cases sel with
  | firstAvailable => exact FirstAvailable.select_spec_fa g r c h
  | mrv => exact MRV.select_spec_mrv g r c h

theorem openAt_mono (g1 g : GridT) (h : GridLe g1 g) (p : Coord)
    (hp : openAt g1 p = true) : openAt g p = true := by
  simp only [openAt, decide_eq_true_eq] at *
  exact lt_of_lt_of_le hp ((h p.1 p.2).length_le)

theorem openCount_le_81 (g : GridT) : openCount g ≤ 81 := by
  have h : allCoords.countP (openAt g) ≤ allCoords.length := List.countP_le_length _
  have h81 : allCoords.length = 81 := by decide
  unfold openCount
  omega

theorem openCount_mono (g1 g : GridT) (h : GridLe g1 g) : openCount g1 ≤ openCount g := by
  unfold openCount
  exact List.countP_mono_left fun p _ hp => openAt_mono g1 g h p hp

theorem openCount_lt (g1 g : GridT) (r c : Nat) (hle : GridLe g1 g)
    (hr : r < 9) (hc : c < 9) (hopen : 1 < (getCell g r c).length)
    (hclosed : (getCell g1 r c).length ≤ 1) : openCount g1 < openCount g := by
  have hmem : (r, c) ∈ allCoords := (mem_allCoords (r, c)).mpr ⟨hr, hc⟩
  rcases List.append_of_mem hmem with ⟨l1, l2, hsplit⟩
  unfold openCount
  rw [hsplit]
  simp only [List.countP_append, List.countP_cons]
  have m1 : l1.countP (openAt g1) ≤ l1.countP (openAt g) :=
    List.countP_mono_left fun p _ hp => openAt_mono g1 g hle p hp
  have m2 : l2.countP (openAt g1) ≤ l2.countP (openAt g) :=
    List.countP_mono_left fun p _ hp => openAt_mono g1 g hle p hp
  have e1 : openAt g1 (r, c) = false := by
    simp only [openAt, decide_eq_false_iff_not, not_lt]
    exact hclosed
  have e2 : openAt g (r, c) = true := by
    simp only [openAt, decide_eq_true_eq]
    exact hopen
  rw [e1, e2]
  simp only [Bool.false_eq_true, if_false, if_true, reduceIte]
  omega

namespace Backtracking

theorem tryDigits_ne_none (recur : GridT → Option (Option GridT)) (g : GridT) (r c : Nat)
    (hrec : ∀ d ng, d ∈ getCell g r c →
      AC3.consistency (setCell (Grid.copy g) r c [d]) [(r, c)] = (ng, true) →
      recur ng ≠ none) :
    ∀ (ds : List Char), (∀ d ∈ ds, d ∈ getCell g r c) →
      tryDigits recur g r c ds ≠ none := by
  intro ds
  induction ds with
  | nil => intro hds; simp [tryDigits]
  | cons d rest ih =>
    intro hds
    rw [tryDigits]
    by_cases hivc : Grid.is_value_consistent g [d] r c
    · rw [if_pos hivc]
      rcases hc : AC3.consistency (setCell (Grid.copy g) r c [d]) [(r, c)] with ⟨ng, ok⟩
      cases ok with
      | false => exact ih (fun e he => hds e (List.mem_cons_of_mem _ he))
      | true =>
        simp only []
        have hne := hrec d ng (hds d (List.mem_cons_self d rest)) hc
        rcases hb : recur ng with _ | r2
        · exact absurd hb hne
        · cases r2 with
          | none => exact ih (fun e he => hds e (List.mem_cons_of_mem _ he))
          | some sol => simp
    · rw [if_neg hivc]
      exact ih (fun e he => hds e (List.mem_cons_of_mem _ he))


theorem backtrack_searchF_fuel : ∀ (fuel : Nat) (sel : VarSelector) (g : GridT),
    openCount g < fuel → backtrack_searchF fuel g sel ≠ none := by
  intro fuel
  induction fuel with
  | zero => intro sel g h; omega
  | succ n ih =>
    intro sel g h
    rw [backtrack_searchF]
    by_cases hs : Grid.is_solved g
    · rw [if_pos hs]; simp
    · rw [if_neg hs]
      rcases hv : select_variable sel g with _ | ⟨r, c⟩
      · simp
      · obtain ⟨hr, hc, hopen⟩ := select_variable_spec sel g r c hv
        apply tryDigits_ne_none
        · intro d ng hd hcons
          apply ih sel ng
          have hcell : getCell g r c ≠ [] := by
            intro hnil; rw [hnil] at hopen; simp at hopen
          have hsetle : GridLe (setCell (Grid.copy g) r c [d]) g :=
            (setCell_gridInv g r c [d] (List.singleton_sublist.mpr hd) (by simp)).1
          have hcle : GridLe ng (setCell (Grid.copy g) r c [d]) := by
            have := (AC3.consistency_inv (setCell (Grid.copy g) r c [d]) [(r, c)]).1
            rw [hcons] at this
            exact this
          have hngle : GridLe ng g := gridLe_trans hcle hsetle
          have hset : getCell (setCell (Grid.copy g) r c [d]) r c = [d] :=
            getCell_setCell_self g r c [d] hcell
          have hng1 : (getCell ng r c).length ≤ 1 := by
            have := (hcle r c).length_le
            rw [hset] at this
            simpa using this
          have := openCount_lt ng g r c hngle hr hc hopen hng1
          omega
        · intro d hd; exact hd

end Backtracking

/-- Nine pairwise-distinct digit characters hit each digit exactly once. -/
theorem exists_unique_of_inj_nine (f : Nat → Char)
    (hinj : ∀ a b, a < 9 → b < 9 → a ≠ b → f a ≠ f b)
    (hmem : ∀ a, a < 9 → f a ∈ completeDomain) :
    ∀ d ∈ completeDomain, ∃! a, a < 9 ∧ f a = d := by
  intro d hd
  have hinj2 : Set.InjOn f (Finset.range 9) := by
    intro a ha b hb hab
    by_contra hne
    exact hinj a b (by simpa using ha) (by simpa using hb) hne hab
  have hcard : ((Finset.range 9).image f).card = 9 := by
    rw [Finset.card_image_of_injOn hinj2, Finset.card_range]
  have hsub : (Finset.range 9).image f ⊆ completeDomain.toFinset := by
    intro x hx
    rcases Finset.mem_image.mp hx with ⟨a, ha, rfl⟩
    simpa using hmem a (by simpa using ha)
  have hdf : completeDomain.toFinset.card = 9 := by decide
  have heq : (Finset.range 9).image f = completeDomain.toFinset :=
    Finset.eq_of_subset_of_card_le hsub (by omega)
  have hdin : d ∈ (Finset.range 9).image f := by
    rw [heq]
    simpa using hd
  rcases Finset.mem_image.mp hdin with ⟨a, ha, hfa⟩
  refine ⟨a, ⟨by simpa using ha, hfa⟩, ?_⟩
  intro b hb
  by_contra hne
  exact hinj b a hb.1 (by simpa using ha) hne (by rw [hb.2, hfa])

namespace Grid

theorem chunk_nil_of_lt (l : List Domain) (h : l.length < 9) : chunk l = [] := by
  rw [chunk]
  rw [dif_neg (by omega)]

theorem chunk_cons_of_le (l : List Domain) (h : 9 ≤ l.length) :
    chunk l = l.take 9 :: chunk (l.drop 9) := by
  rw [chunk]
  rw [dif_pos h]

theorem readAux_eq : ∀ (cs : List Char) (row : List Domain) (cells : GridT),
    row.length < 9 → readAux cs row cells = cells ++ chunk (row ++ cs.map conv) := by
  intro cs
  induction cs with
  | nil =>
    intro row cells hrow
    rw [readAux]
    rw [List.map_nil, List.append_nil, chunk_nil_of_lt row hrow, List.append_nil]
  | cons c rest ih =>
    intro row cells hrow
    rw [readAux]
    simp only [width]
    by_cases hfull : (row ++ [if c = '.' then completeDomain else [c]]).length = 9
    · rw [if_pos hfull]
      rw [ih [] _ (by simp)]
      rw [List.map_cons]
      rw [show conv c = if c = '.' then completeDomain else [c] from rfl]
      rw [show row ++ (if c = '.' then completeDomain else [c]) :: rest.map conv
          = (row ++ [if c = '.' then completeDomain else [c]]) ++ rest.map conv by simp]
      have hrhs : chunk ((row ++ [if c = '.' then completeDomain else [c]]) ++ rest.map conv)
          = (row ++ [if c = '.' then completeDomain else [c]]) :: chunk (rest.map conv) := by
        rw [chunk_cons_of_le _
          (by simp only [List.length_append, List.length_cons, List.length_nil] at hfull ⊢
              omega)]
        rw [List.take_left' hfull, List.drop_left' hfull]
      rw [hrhs]
      simp
    · rw [if_neg hfull]
      rw [ih (row ++ [if c = '.' then completeDomain else [c]]) cells
        (by simp only [List.length_append, List.length_cons, List.length_nil] at hfull ⊢
            omega)]
      rw [List.map_cons]
      rw [show conv c = if c = '.' then completeDomain else [c] from rfl]
      simp

theorem read_file_eq (s : List Char) : read_file s = chunk (s.map conv) := by
  unfold read_file
  rw [readAux_eq s [] [] (by simp)]
  simp

theorem chunk_length : ∀ (n : Nat) (l : List Domain), l.length ≤ n →
    (chunk l).length = l.length / 9 := by
  intro n
  induction n with
  | zero =>
    intro l hl
    rw [chunk_nil_of_lt l (by omega)]
    simp
    omega
  | succ n ih =>
    intro l hl
    by_cases h : 9 ≤ l.length
    · rw [chunk_cons_of_le l h]
      simp only [List.length_cons]
      rw [ih (l.drop 9) (by simp; omega)]
      simp only [List.length_drop]
      omega
    · rw [chunk_nil_of_lt l (by omega)]
      simp
      omega

theorem read_file_length (s : List Char) : (read_file s).length = s.length / 9 := by
  rw [read_file_eq, chunk_length (s.map conv).length _ le_rfl, List.length_map]

theorem chunk_getD : ∀ (i : Nat) (l : List Domain), 9 * i + 9 ≤ l.length →
    (chunk l).getD i [] = (l.drop (9 * i)).take 9 := by
  intro i
  induction i with
  | zero =>
    intro l hl
    rw [chunk_cons_of_le l (by omega)]
    simp
  | succ n ih =>
    intro l hl
    rw [chunk_cons_of_le l (by omega)]
    rw [List.getD_cons_succ]
    rw [ih (l.drop 9) (by simp; omega)]
    rw [List.drop_drop]
    have h99 : 9 + 9 * n = 9 * (n + 1) := by ring
    rw [h99]

theorem read_file_getCell (s : List Char) (i j : Nat) (hi : i < 9) (hj : j < 9)
    (hlen : s.length = 81) :
    getCell (read_file s) i j = conv (s.getD (9 * i + j) ' ') := by
  rw [read_file_eq]
  unfold getCell
  rw [chunk_getD i (s.map conv) (by rw [List.length_map, hlen]; omega)]
  have h1 : ((s.map conv).drop (9 * i)).take 9 = ((s.drop (9 * i)).take 9).map conv := by
    simp [List.map_take, List.map_drop]
  rw [h1]
  have hidx : j < ((s.drop (9 * i)).take 9).length := by
    simp only [List.length_take, List.length_drop, hlen]
    omega
  rw [List.getD_eq_getElem?_getD, List.getElem?_map]
  rw [List.getElem?_take, if_pos hj, List.getElem?_drop]
  rw [List.getD_eq_getElem?_getD]
  rcases hx : s[9 * i + j]? with _ | x
  · rw [List.getElem?_eq_none_iff] at hx
    omega
  · rfl

theorem chunk_row_length : ∀ (n : Nat) (l : List Domain) (r : List Domain),
    l.length ≤ n → r ∈ chunk l → r.length = 9 := by
  intro n
  induction n with
  | zero =>
    intro l r hl hr
    rw [chunk_nil_of_lt l (by omega)] at hr
    simp at hr
  | succ n ih =>
    intro l r hl hr
    by_cases h : 9 ≤ l.length
    · rw [chunk_cons_of_le l h] at hr
      rcases List.mem_cons.mp hr with rfl | hr2
      · simp only [List.length_take]
        omega
      · exact ih (l.drop 9) r (by simp; omega) hr2
    · rw [chunk_nil_of_lt l (by omega)] at hr
      simp at hr

theorem read_file_shape (s : List Char) (hlen : s.length = 81) : Shape9 (read_file s) := by
  constructor
  · rw [read_file_length, hlen]
  · intro r hr
    rw [read_file_eq] at hr
    exact chunk_row_length (s.map conv).length _ r le_rfl hr

end Grid

theorem getCell_oob (g : GridT) (i j : Nat) (h : Shape9 g) (hob : 9 ≤ i ∨ 9 ≤ j) :
    getCell g i j = [] := by
  obtain ⟨h1, h2⟩ := h
  by_cases hi : i < g.length
  · have hrow : (g.getD i []).length = 9 := by
      apply h2
      rw [List.getD_eq_getElem?_getD, List.getElem?_eq_getElem hi]
      exact List.getElem_mem hi
    have hj9 : 9 ≤ j := by
      rcases hob with hx | hx
      · omega
      · exact hx
    have hle : (g.getD i []).length ≤ j := by omega
    unfold getCell
    exact List.getD_eq_default _ _ hle
  · have hgd : g.getD i [] = [] := List.getD_eq_default _ _ (by omega)
    unfold getCell
    rw [hgd]
    rfl

theorem grid_ext (a b : GridT) (ha : Shape9 a) (hb : Shape9 b)
    (h : ∀ i j, i < 9 → j < 9 → getCell a i j = getCell b i j) : a = b := by
  obtain ⟨ha1, ha2⟩ := ha
  obtain ⟨hb1, hb2⟩ := hb
  apply List.ext_getElem?
  intro i
  by_cases hi : i < 9
  · have hia : i < a.length := by omega
    have hib : i < b.length := by omega
    rw [List.getElem?_eq_getElem hia, List.getElem?_eq_getElem hib]
    congr 1
    apply List.ext_getElem?
    intro j
    have hga : a.getD i [] = a[i] := by
      rw [List.getD_eq_getElem?_getD, List.getElem?_eq_getElem hia]
      rfl
    have hgb : b.getD i [] = b[i] := by
      rw [List.getD_eq_getElem?_getD, List.getElem?_eq_getElem hib]
      rfl
    have hrowa : (a[i] : List Domain).length = 9 := ha2 _ (List.getElem_mem hia)
    have hrowb : (b[i] : List Domain).length = 9 := hb2 _ (List.getElem_mem hib)
    by_cases hj : j < 9
    · have hja : j < (a[i] : List Domain).length := by omega
      have hjb : j < (b[i] : List Domain).length := by omega
      rw [List.getElem?_eq_getElem hja, List.getElem?_eq_getElem hjb]
      have hcell := h i j hi hj
      unfold getCell at hcell
      rw [hga, hgb] at hcell
      rw [List.getD_eq_getElem?_getD, List.getD_eq_getElem?_getD] at hcell
      rw [List.getElem?_eq_getElem hja, List.getElem?_eq_getElem hjb] at hcell
      simpa using hcell
    · rw [List.getElem?_eq_none_iff.mpr (by omega), List.getElem?_eq_none_iff.mpr (by omega)]
  · rw [List.getElem?_eq_none_iff.mpr (by omega), List.getElem?_eq_none_iff.mpr (by omega)]

theorem sublist_singleton_eq (l : Domain) (c : Char) (hs : List.Sublist l [c])
    (hne : l ≠ []) : l = [c] := by
  rcases List.sublist_singleton.mp hs with h | h
  · exact absurd h hne
  · exact h

namespace Grid

theorem conv_ne_nil (c : Char) : conv c ≠ [] := by
  unfold conv
  by_cases h : c = '.'
  · rw [if_pos h]
    simp [completeDomain]
  · rw [if_neg h]
    simp

theorem conv_sublist (c : Char) (h : c = '.' ∨ c ∈ completeDomain) :
    List.Sublist (conv c) completeDomain := by
  unfold conv
  rcases h with h | h
  · rw [if_pos h]
  · by_cases hd : c = '.'
    · rw [if_pos hd]
    · rw [if_neg hd]
      exact List.singleton_sublist.mpr h

theorem read_file_nonEmpty (s : List Char) (hlen : s.length = 81) :
    NonEmptyGrid (read_file s) := by
  intro i j hi hj
  rw [read_file_getCell s i j hi hj hlen]
  exact conv_ne_nil _

theorem read_file_digits (s : List Char) (hv : ValidPuzzleStr s) :
    DigitsGrid (read_file s) := by
  obtain ⟨hlen, hchars⟩ := hv
  intro i j
  by_cases hij : i < 9 ∧ j < 9
  · rw [read_file_getCell s i j hij.1 hij.2 hlen]
    apply conv_sublist
    apply hchars
    have hk : 9 * i + j < s.length := by omega
    rw [List.getD_eq_getElem?_getD, List.getElem?_eq_getElem hk]
    exact List.getElem_mem hk
  · rw [getCell_oob _ i j (read_file_shape s hlen) (by omega)]
    simp

/-- Cells of `read_file` at positions holding a given digit. -/
theorem read_file_given (s : List Char) (i j : Nat) (hi : i < 9) (hj : j < 9)
    (hlen : s.length = 81) (hc : s.getD (9 * i + j) ' ' ≠ '.') :
    getCell (read_file s) i j = [s.getD (9 * i + j) ' '] := by
  rw [read_file_getCell s i j hi hj hlen]
  unfold conv
  rw [if_neg hc]

/-- The solved-grid structure: every cell a digit singleton and every
row, column and box containing each digit exactly once. -/
theorem solved_units (g : GridT) (hs : is_solved g = true) (hne : NonEmptyGrid g)
    (hd : DigitsGrid g) :
    (∀ i j, i < 9 → j < 9 → ∃ d ∈ completeDomain, getCell g i j = [d]) ∧
    (∀ r, r < 9 → ∀ d ∈ completeDomain, ∃! j, j < 9 ∧ getCell g r j = [d]) ∧
    (∀ c, c < 9 → ∀ d ∈ completeDomain, ∃! i, i < 9 ∧ getCell g i c = [d]) ∧
    (∀ br bc, br < 3 → bc < 3 → ∀ d ∈ completeDomain,
      ∃! k, k < 9 ∧ getCell g (3 * br + k / 3) (3 * bc + k % 3) = [d]) := by
  have hsing : ∀ i j, i < 9 → j < 9 → getCell g i j = [(getCell g i j).headD ' '] := by
    intro i j hi hj
    rcases solved_singleton g hs hne i j hi hj with ⟨c, hc⟩
    rw [hc]
    rfl
  have hmemd : ∀ i j, i < 9 → j < 9 → (getCell g i j).headD ' ' ∈ completeDomain := by
    intro i j hi hj
    apply List.singleton_sublist.mp
    rw [← hsing i j hi hj]
    exact hd i j
  refine ⟨?_, ?_, ?_, ?_⟩
  · intro i j hi hj
    exact ⟨(getCell g i j).headD ' ', hmemd i j hi hj, hsing i j hi hj⟩
  · intro r hr d hdm
    have := exists_unique_of_inj_nine (fun j => (getCell g r j).headD ' ')
      (fun a b ha hb hab => by
        intro hfeq
        have hfeq2 : (getCell g r a).headD ' ' = (getCell g r b).headD ' ' := hfeq
        apply solved_row_ne g hs r a b hr ha hb hab
        rw [hsing r a hr ha, hsing r b hr hb, hfeq2])
      (fun a ha => hmemd r a hr ha) d hdm
    rcases this with ⟨a, ⟨ha, hfa⟩, huniq⟩
    have hfa2 : (getCell g r a).headD ' ' = d := hfa
    refine ⟨a, ⟨ha, by rw [hsing r a hr ha, hfa2]⟩, ?_⟩
    intro b hb
    apply huniq
    refine ⟨hb.1, ?_⟩
    have := hb.2
    rw [hsing r b hr hb.1] at this
    simpa using this
  · intro c hc d hdm
    have := exists_unique_of_inj_nine (fun i => (getCell g i c).headD ' ')
      (fun a b ha hb hab => by
        intro hfeq
        have hfeq2 : (getCell g a c).headD ' ' = (getCell g b c).headD ' ' := hfeq
        apply solved_col_ne g hs c a b hc ha hb hab
        rw [hsing a c ha hc, hsing b c hb hc, hfeq2])
      (fun a ha => hmemd a c ha hc) d hdm
    rcases this with ⟨a, ⟨ha, hfa⟩, huniq⟩
    have hfa2 : (getCell g a c).headD ' ' = d := hfa
    refine ⟨a, ⟨ha, by rw [hsing a c ha hc, hfa2]⟩, ?_⟩
    intro b hb
    apply huniq
    refine ⟨hb.1, ?_⟩
    have := hb.2
    rw [hsing b c hb.1 hc] at this
    simpa using this
  · intro br bc hbr hbc d hdm
    have hco : ∀ k, k < 9 → 3 * br + k / 3 < 9 ∧ 3 * bc + k % 3 < 9 := by
      intro k hk
      constructor
      · omega
      · have : k % 3 < 3 := Nat.mod_lt _ (by omega)
        omega
    have := exists_unique_of_inj_nine
      (fun k => (getCell g (3 * br + k / 3) (3 * bc + k % 3)).headD ' ')
      (fun a b ha hb hab => by
        intro hfeq
        apply solved_box_ne g hs (3 * br + a / 3) (3 * bc + a % 3)
          (3 * br + b / 3) (3 * bc + b % 3)
          (hco a ha).1 (hco a ha).2 (hco b hb).1 (hco b hb).2
          (by omega) (by omega) (by omega)
        have hfeq2 : (getCell g (3 * br + a / 3) (3 * bc + a % 3)).headD ' '
            = (getCell g (3 * br + b / 3) (3 * bc + b % 3)).headD ' ' := hfeq
        rw [hsing _ _ (hco a ha).1 (hco a ha).2, hsing _ _ (hco b hb).1 (hco b hb).2, hfeq2])
      (fun a ha => hmemd _ _ (hco a ha).1 (hco a ha).2) d hdm
    rcases this with ⟨a, ⟨ha, hfa⟩, huniq⟩
    have hfa2 : (getCell g (3 * br + a / 3) (3 * bc + a % 3)).headD ' ' = d := hfa
    refine ⟨a, ⟨ha, by rw [hsing _ _ (hco a ha).1 (hco a ha).2, hfa2]⟩, ?_⟩
    intro b hb
    apply huniq
    refine ⟨hb.1, ?_⟩
    have := hb.2
    rw [hsing _ _ (hco b hb.1).1 (hco b hb.1).2] at this
    simpa using this

end Grid

namespace Backtracking

/-- A grid returned by `search` on a well-formed 81-character puzzle
string is a solution of that puzzle. -/
theorem search_isSolutionOf (s : List Char) (sel : VarSelector) (g1 : GridT)
    (hlen : s.length = 81) (h : search (Grid.read_file s) sel = some g1) :
    IsSolutionOf (Grid.read_file s) g1 := by
  obtain ⟨hinv, hsolved⟩ := search_inv _ sel g1 h
  exact ⟨hinv.2.2 (Grid.read_file_shape s hlen), hsolved, hinv.1,
    nonEmptyGrid_of g1 _ (Grid.read_file_nonEmpty s hlen) hinv.2.1⟩

end Backtracking

/-- A puzzle whose initial domains are all singletons has at most one
solution. -/
theorem unique_solution_of_singletons (g0 : GridT)
    (hall : ∀ i j, i < 9 → j < 9 → (getCell g0 i j).length = 1) :
    ∀ a b, IsSolutionOf g0 a → IsSolutionOf g0 b → a = b := by
  have key : ∀ a, IsSolutionOf g0 a → ∀ i j, i < 9 → j < 9 →
      getCell a i j = getCell g0 i j := by
    intro a ⟨hsh, hsol, hle, hne⟩ i j hi hj
    rcases hx : getCell g0 i j with _ | ⟨c, rest⟩
    · exfalso
      have h1 := hall i j hi hj
      rw [hx] at h1
      simp at h1
    · have hrest : rest = [] := by
        have := hall i j hi hj
        rw [hx] at this
        simp at this
        exact this
      subst hrest
      have hsub := hle i j
      rw [hx] at hsub
      exact sublist_singleton_eq _ _ hsub (hne i j hi hj)
  intro a b hA hB
  exact grid_ext a b hA.1 hB.1
    (fun i j hi hj => by rw [key a hA i j hi hj, key b hB i j hi hj])

/-! ## The claims -/

/-- C1 (counterexample): the claim fails on the literal code for
arbitrary grids.  On the grid `gEmptyAndLetter` (a full solution whose
corner domain was emptied and whose last cell holds the non-digit `x`),
`Backtracking.search` returns the grid itself, yet cell `(0,0)` is not a
digit singleton and cell `(8,8)` is not a digit, so the returned grid
does not have every cell a single digit nor every row containing each
digit 1-9. -/
theorem c1_counterexample :
    Backtracking.search gEmptyAndLetter .firstAvailable = some gEmptyAndLetter ∧
    getCell gEmptyAndLetter 0 0 = [] ∧
    getCell gEmptyAndLetter 8 8 = ['x'] := by
  refine ⟨by decide, by decide, by decide⟩

/-- C1 (amended): for every grid whose in-range domains are non-empty
strings of digit characters, if `Backtracking.search` returns a grid
then every cell of the returned grid is a digit singleton and every row,
every column, and every 3x3 box contains each digit 1-9 exactly once. -/
theorem c1_search_sound (g : GridT) (sel : VarSelector) (g1 : GridT)
    (hne : NonEmptyGrid g) (hd : DigitsGrid g)
    (h : Backtracking.search g sel = some g1) :
    (∀ i j, i < 9 → j < 9 → ∃ d ∈ completeDomain, getCell g1 i j = [d]) ∧
    (∀ r, r < 9 → ∀ d ∈ completeDomain, ∃! j, j < 9 ∧ getCell g1 r j = [d]) ∧
    (∀ c, c < 9 → ∀ d ∈ completeDomain, ∃! i, i < 9 ∧ getCell g1 i c = [d]) ∧
    (∀ br bc, br < 3 → bc < 3 → ∀ d ∈ completeDomain,
      ∃! k, k < 9 ∧ getCell g1 (3 * br + k / 3) (3 * bc + k % 3) = [d]) := by
  obtain ⟨hinv, hsolved⟩ := Backtracking.search_inv g sel g1 h
  have hne1 : NonEmptyGrid g1 := nonEmptyGrid_of g1 g hne hinv.2.1
  have hd1 : DigitsGrid g1 := digitsGrid_of g1 g hd hinv.1
  have := Grid.solved_units g1 hsolved hne1 hd1
  exact ⟨this.1, this.2.1, this.2.2.1, this.2.2.2⟩

/-- C1 (witness): the amended theorem applied to the fully-given solved
puzzle. -/
theorem c1_search_sound_witness :
    NonEmptyGrid (Grid.read_file solvedStr) ∧
    (∀ r, r < 9 → ∀ d ∈ completeDomain,
      ∃! j, j < 9 ∧ getCell (Grid.read_file solvedStr) r j = [d]) := by
  refine ⟨by decide, ?_⟩
  exact (c1_search_sound (Grid.read_file solvedStr) .firstAvailable
    (Grid.read_file solvedStr) (by decide) (by decide) (by decide)).2.1

/-- C2 (counterexample): `read_file` performs no validation at all.  The
82-character string `badLenStr` is not a valid puzzle string, yet
`read_file` silently constructs a full 9-row grid from it (which is even
a solved grid); no `ParseError` exists in the code. -/
theorem c2_counterexample :
    badLenStr.length = 82 ∧
    (Grid.read_file badLenStr).length = 9 ∧
    Grid.is_solved (Grid.read_file badLenStr) = true := by
  refine ⟨by decide, by decide, by decide⟩

/-- C2 (amended): `Grid.read_file` accepts every input string without
any failure path: it converts characters one by one (`.` to the full
domain, anything else to a singleton), emits a row after every ninth
character and silently discards a trailing partial row, so the
constructed grid has exactly `s.length / 9` rows. -/
theorem c2_read_file_total :
    (∀ s : List Char, Grid.read_file s = chunk (s.map conv)) ∧
    (∀ s : List Char, (Grid.read_file s).length = s.length / 9) :=
  ⟨Grid.read_file_eq, Grid.read_file_length⟩

/-- C3 (code bug): on the grid `gEmptyCorner` (a full solution whose
corner domain was emptied) `pre_process_consistency` returns `False`,
yet `Backtracking.search` ignores that boolean, runs the recursive
search anyway, and even returns a grid instead of the claimed immediate
no-solution outcome. -/
theorem c3_failure_not_propagated :
    (AC3.pre_process_consistency gEmptyCorner).2 = false ∧
    Backtracking.search gEmptyCorner .firstAvailable = some gEmptyCorner := by
  refine ⟨by decide, by decide⟩

/-- C4 (counterexample): `is_solved` is not equivalent to "every cell a
consistent singleton": the grid `gEmptyCentre` has the empty domain at
`(4,4)` (so not every cell is a singleton digit), yet `is_solved`
returns `true` because an empty domain never equals any peer's
domain. -/
theorem c4_counterexample :
    Grid.is_solved gEmptyCentre = true ∧ getCell gEmptyCentre 4 4 = [] := by
  refine ⟨by decide, by decide⟩

/-- C4 (amended): `is_solved` returns `true` iff every cell's domain has
at most one candidate (possibly zero) and no other cell in the same row,
column, or 3x3 box holds an identical domain string. -/
theorem c4_is_solved_characterization (g : GridT) :
    Grid.is_solved g = true ↔
      ∀ i j, i < 9 → j < 9 →
        (getCell g i j).length ≤ 1 ∧
        (∀ a, a < 9 → a ≠ j → getCell g i a ≠ getCell g i j) ∧
        (∀ a, a < 9 → a ≠ i → getCell g a j ≠ getCell g i j) ∧
        (∀ a b, a < 3 → b < 3 → ¬(i / 3 * 3 + a = i ∧ j / 3 * 3 + b = j) →
          getCell g (i / 3 * 3 + a) (j / 3 * 3 + b) ≠ getCell g i j) := by
  rw [Grid.is_solved_iff]
  constructor
  · intro h i j hi hj
    obtain ⟨hlen, hivc⟩ := h i j hi hj
    obtain ⟨h1, h2, h3⟩ := (Grid.is_value_consistent_iff g _ i j).mp hivc
    exact ⟨hlen, h1, h2, h3⟩
  · intro h i j hi hj
    obtain ⟨hlen, h1, h2, h3⟩ := h i j hi hj
    exact ⟨hlen, (Grid.is_value_consistent_iff g _ i j).mpr ⟨h1, h2, h3⟩⟩

/-- C4 (witness): the characterization applied to the solved example
grid. -/
theorem c4_is_solved_characterization_witness :
    Grid.is_solved (Grid.read_file solvedStr) = true :=
  (c4_is_solved_characterization (Grid.read_file solvedStr)).mpr (by decide)

/-- C5: starting from any grid whose in-range domains are non-empty,
each of `remove_domain_row`, `remove_domain_column`, `remove_domain_unit`
and `consistency` leaves every in-range domain non-empty (whether or not
it reports failure): a pass that would empty a domain reports failure
without writing the empty domain into the matrix. -/
theorem c5_no_empty_domain (g : GridT) (row col : Nat) (Q : List Coord)
    (hne : NonEmptyGrid g) :
    NonEmptyGrid (AC3.remove_domain_row g row col).2 ∧
    NonEmptyGrid (AC3.remove_domain_column g row col).2 ∧
    NonEmptyGrid (AC3.remove_domain_unit g row col).2 ∧
    NonEmptyGrid (AC3.consistency g Q).1 :=
  ⟨nonEmptyGrid_of _ g hne (AC3.remove_domain_row_inv g row col).2.1,
   nonEmptyGrid_of _ g hne (AC3.remove_domain_column_inv g row col).2.1,
   nonEmptyGrid_of _ g hne (AC3.remove_domain_unit_inv g row col).2.1,
   nonEmptyGrid_of _ g hne (AC3.consistency_inv g Q).2.1⟩

/-- C5 (witness): the liveness invariant applied to the example puzzle
with the worklist seeded at the corner. -/
theorem c5_no_empty_domain_witness :
    NonEmptyGrid (Grid.read_file exampleStr) ∧
    NonEmptyGrid (AC3.consistency (Grid.read_file exampleStr) [(0, 0)]).1 :=
  ⟨by decide,
   (c5_no_empty_domain (Grid.read_file exampleStr) 0 0 [(0, 0)] (by decide)).2.2.2⟩

/-- C6: for every valid 81-character puzzle string and every selector,
if `search` on the grid built from that string returns a grid, then
every position holding a given digit in the input string holds that same
digit (as a singleton domain) in the returned grid. -/
theorem c6_preservation (s : List Char) (sel : VarSelector) (g1 : GridT) (i j : Nat)
    (hv : ValidPuzzleStr s) (hi : i < 9) (hj : j < 9)
    (h : Backtracking.search (Grid.read_file s) sel = some g1)
    (hc : s.getD (9 * i + j) ' ' ≠ '.') :
    getCell g1 i j = [s.getD (9 * i + j) ' '] := by
  obtain ⟨hinv, hsolved⟩ := Backtracking.search_inv _ sel g1 h
  have hgiven := Grid.read_file_given s i j hi hj hv.1 hc
  have hsub := hinv.1 i j
  rw [hgiven] at hsub
  have hne1 : NonEmptyGrid g1 :=
    nonEmptyGrid_of g1 _ (Grid.read_file_nonEmpty s hv.1) hinv.2.1
  exact sublist_singleton_eq _ _ hsub (hne1 i j hi hj)

/-- C6 (witness): preservation applied to the fully-given solved puzzle
at the corner position. -/
theorem c6_preservation_witness :
    solvedStr.getD 0 ' ' = '1' ∧ getCell (Grid.read_file solvedStr) 0 0 = ['1'] := by
  refine ⟨by decide, ?_⟩
  have := c6_preservation solvedStr .firstAvailable (Grid.read_file solvedStr) 0 0
    (by decide) (by decide) (by decide) (by decide) (by decide)
  simpa using this

/-- C7 (counterexample): on the multi-solution puzzle `divergStr` the
two selectors find different solved grids, so FirstAvailable and MRV do
not always produce the same final grid on a solvable puzzle. -/
theorem c7_counterexample :
    Backtracking.search (Grid.read_file divergStr) .firstAvailable ≠
      Backtracking.search (Grid.read_file divergStr) .mrv ∧
    (Backtracking.search (Grid.read_file divergStr) .firstAvailable).map Grid.is_solved
      = some true ∧
    (Backtracking.search (Grid.read_file divergStr) .mrv).map Grid.is_solved
      = some true := by
  refine ⟨by decide, by decide, by decide⟩

/-- C7 (amended): any grid returned by `search` is a solution of the
puzzle (solved, within the initial domains); hence on a puzzle with at
most one solution, if both selectors return grids they return the same
grid.  On puzzles with several solutions the selectors may disagree
(see the counterexample). -/
theorem c7_selector_agreement (s : List Char) (g1 g2 : GridT)
    (hlen : s.length = 81)
    (huniq : ∀ a b, IsSolutionOf (Grid.read_file s) a →
      IsSolutionOf (Grid.read_file s) b → a = b)
    (h1 : Backtracking.search (Grid.read_file s) .firstAvailable = some g1)
    (h2 : Backtracking.search (Grid.read_file s) .mrv = some g2) :
    g1 = g2 :=
  huniq g1 g2 (Backtracking.search_isSolutionOf s .firstAvailable g1 hlen h1)
    (Backtracking.search_isSolutionOf s .mrv g2 hlen h2)

/-- C7 (witness): agreement applied to the fully-given solved puzzle,
whose solution is unique because every initial domain is a singleton. -/
theorem c7_selector_agreement_witness :
    Backtracking.search (Grid.read_file solvedStr) .firstAvailable =
      Backtracking.search (Grid.read_file solvedStr) .mrv := by
  have h1 : Backtracking.search (Grid.read_file solvedStr) .firstAvailable
      = some (Grid.read_file solvedStr) := by decide
  have h2 : Backtracking.search (Grid.read_file solvedStr) .mrv
      = some (Grid.read_file solvedStr) := by decide
  have := c7_selector_agreement solvedStr (Grid.read_file solvedStr)
    (Grid.read_file solvedStr) (by decide)
    (unique_solution_of_singletons (Grid.read_file solvedStr) (by decide)) h1 h2
  rw [h1, h2]

/-- C8 (counterexample): the verdict of `consistency` is not independent
of the order in which coordinates are popped from the worklist: on the
grid `gC8` with worklist `[(0,0), (5,2)]`, popping the front first
succeeds while popping the back first fails (the non-singleton domain
`ab` at `(0,0)` removes the substring `ab`, whose occurrence depends on
whether `X` was removed from `aXb` first). -/
theorem c8_counterexample :
    (AC3.consistencyPick pickFront gC8 [(0, 0), (5, 2)]).2 = true ∧
    (AC3.consistencyPick pickBack gC8 [(0, 0), (5, 2)]).2 = false := by
  refine ⟨by decide, by decide⟩

/-- C8 (amended): for grids whose domains are non-empty subsequences of
`123456789` and worklists that are duplicate-free with every entry an
in-range singleton cell — the only worklists the solver itself ever
builds — the verdict of `consistency` and, on success, the resulting
cell domains are independent of the order in which coordinates are
popped from the worklist set: any two pop strategies over any two
arrangements of the same worklist give the same verdict and, on
success, identical grids; and the front-popping strategy is the
implementation's `consistency`.  (On arbitrary grids the claim fails,
see the counterexample: a multi-character domain in the worklist makes
the verdict order-dependent.) -/
theorem c8_pop_order_independent (g : GridT) (Q Q2 : List Coord)
    (pick1 pick2 : GridT → List Coord → Nat) (hw : WSInv g Q) (hperm : Q.Perm Q2) :
    ResultEq (AC3.consistencyPick pick1 g Q) (AC3.consistencyPick pick2 g Q2) ∧
    AC3.consistencyPick pickFront g Q = AC3.consistency g Q :=
  ⟨AC3.consistencyPick_confluent (2 * AC3.gsize g + Q.length) g Q Q2 pick1 pick2
    le_rfl hw hperm, AC3.consistencyPick_front g Q⟩

/-- C8 (witness): order-independence applied to the solved puzzle with
the two singleton cells `(0,0)` and `(4,4)` enqueued in either order,
compared across the front- and back-popping strategies. -/
theorem c8_pop_order_independent_witness :
    WSInv (Grid.read_file solvedStr) [(0, 0), (4, 4)] ∧
    List.Perm [(0, 0), (4, 4)] [((4 : Nat), (4 : Nat)), (0, 0)] ∧
    ResultEq (AC3.consistencyPick pickFront (Grid.read_file solvedStr) [(0, 0), (4, 4)])
      (AC3.consistencyPick pickBack (Grid.read_file solvedStr) [(4, 4), (0, 0)]) :=
  ⟨by decide, by decide,
    (c8_pop_order_independent (Grid.read_file solvedStr) [(0, 0), (4, 4)] [(4, 4), (0, 0)]
      pickFront pickBack (by decide) (by decide)).1⟩

/-- C9: `backtrack_search` terminates on every grid with non-empty
domains: the number of open cells is at most 81, and any recursion-depth
budget exceeding the number of open cells is never exhausted (each
recursive call is made on a copy with strictly fewer open cells). -/
theorem c9_termination (g : GridT) (sel : VarSelector) (hne : NonEmptyGrid g) :
    openCount g ≤ 81 ∧
    ∀ fuel, openCount g < fuel → Backtracking.backtrack_searchF fuel g sel ≠ none :=
  ⟨openCount_le_81 g, fun fuel h => Backtracking.backtrack_searchF_fuel fuel sel g h⟩

/-- C9 (witness): termination applied to the example puzzle. -/
theorem c9_termination_witness :
    openCount (Grid.read_file exampleStr) ≤ 81 ∧
    Backtracking.backtrack_searchF 82 (Grid.read_file exampleStr) .mrv ≠ none := by
  have h := c9_termination (Grid.read_file exampleStr) .mrv (by decide)
  exact ⟨h.1, h.2 82 (by decide)⟩

/-- C10: every grid built by `read_file` from a valid puzzle string has
every domain a subsequence of `123456789`; this is preserved by `copy`,
by each removal pass, by `consistency`, and by the singleton assignment
of `backtrack_search`; consequently every domain is strictly ascending,
so candidate digits are always tried in ascending numeric order. -/
theorem c10_ascending_domains :
    (∀ s, ValidPuzzleStr s → DigitsGrid (Grid.read_file s)) ∧
    (∀ g, DigitsGrid g → DigitsGrid (Grid.copy g)) ∧
    (∀ g row col, DigitsGrid g →
      DigitsGrid (AC3.remove_domain_row g row col).2 ∧
      DigitsGrid (AC3.remove_domain_column g row col).2 ∧
      DigitsGrid (AC3.remove_domain_unit g row col).2) ∧
    (∀ g Q, DigitsGrid g → DigitsGrid (AC3.consistency g Q).1) ∧
    (∀ g r c d, d ∈ getCell g r c → DigitsGrid g → DigitsGrid (setCell g r c [d])) ∧
    (∀ g sel fuel g1, DigitsGrid g →
      Backtracking.backtrack_searchF fuel g sel = some (some g1) → DigitsGrid g1) ∧
    (∀ g, DigitsGrid g → ∀ i j, (getCell g i j).Pairwise (· < ·)) := by
  refine ⟨Grid.read_file_digits, fun g h => h, ?_, ?_, ?_, ?_, ?_⟩
  · intro g row col h
    exact ⟨digitsGrid_of _ g h (AC3.remove_domain_row_inv g row col).1,
      digitsGrid_of _ g h (AC3.remove_domain_column_inv g row col).1,
      digitsGrid_of _ g h (AC3.remove_domain_unit_inv g row col).1⟩
  · intro g Q h
    exact digitsGrid_of _ g h (AC3.consistency_inv g Q).1
  · intro g r c d hd h
    apply digitsGrid_of _ g h
    exact (setCell_gridInv g r c [d] (List.singleton_sublist.mpr hd) (by simp)).1
  · intro g sel fuel g1 h hb
    exact digitsGrid_of _ g h (Backtracking.backtrack_searchF_inv fuel sel g g1 hb).1.1
  · intro g h i j
    have hp : completeDomain.Pairwise (· < ·) := by decide
    exact hp.sublist (h i j)

/-- C10 (witness): the invariant applied to the example puzzle and one
consistency run. -/
theorem c10_ascending_domains_witness :
    ValidPuzzleStr exampleStr ∧ DigitsGrid (Grid.read_file exampleStr) := by
  have hv : ValidPuzzleStr exampleStr := by
    constructor
    · decide
    · decide
  exact ⟨hv, c10_ascending_domains.1 exampleStr hv⟩

end Sudoku
